import Mathlib

/-!
Shallow embedding of the incremental synchronization and persistence engine of
the go-safe-browsing-api repository (`safebrowsinglist.go`): the `load` merge
pipeline, `updateLookupMap`, and the surrounding list state.  The gob codec and
the filesystem are abstracted: a persisted file is the sequence of records its
byte stream decodes to, together with a flag saying whether decoding ends in a
non-EOF error; injected storage failures (open/create/encode/remove/rename) are
environment parameters.  The `updateLookupMap` entry loop is given a fuel
semantics because for an unrecognized prefix type its index never advances, so
the source loop does not terminate; `none` denotes that divergence.
-/

namespace SafeBrowsing

/-- Byte-string key stored in a prefix/hash container (Go converts the hash
byte slice to a string before inserting it). -/
abbrev Key := List Nat

/-- Modelled from the spec: the chunk-type enum (`Chunk.pb.go`, which declares
`ChunkData_ChunkType`, is not among the analysed sources); ADD and SUB are the
two declared values. -/
def CHUNK_TYPE_ADD : Nat := 0

/-- Modelled from the spec: the SUB chunk type, see `CHUNK_TYPE_ADD`. -/
def CHUNK_TYPE_SUB : Nat := 1

/-- Modelled from the spec: the 4-byte entry-width marker of the
`ChunkData_PrefixType` enum (declared outside the analysed sources). -/
def PREFIX_4B : Nat := 0

/-- Modelled from the spec: the 32-byte entry-width marker, see `PREFIX_4B`. -/
def PREFIX_32B : Nat := 1

/-- Modelled from the spec: width in bytes of a 4-byte prefix entry. -/
def PREFIX_4B_SZ : Nat := 4

/-- Modelled from the spec: width in bytes of a 32-byte full-hash entry. -/
def PREFIX_32B_SZ : Nat := 32

/-- One chunk record of the wire protocol / persisted log
(`ChunkData` in the source; the protobuf getters `GetChunkNumber`,
`GetChunkType`, `GetPrefixType` are modelled as plain fields; the enum-typed
fields are numbers because a decoded record may carry values outside the
declared enum constants). -/
structure ChunkData where
  ChunkNumber : Nat
  ChunkType : Nat
  PrefixType : Nat
  Hashes : List Nat
deriving DecidableEq, Repr

/-- Modelled from the spec: the prefix/hash container (the HatTrie wrapper is
not among the analysed sources) is an abstract set of byte-string keys with
idempotent insert, idempotent remove and membership, §4.1; `Set` of the
wrapper. -/
def trieSet (t : Finset Key) (k : Key) : Finset Key := insert k t

/-- Modelled from the spec: `Delete` of the container wrapper, a no-op when
the key is absent, §4.1. -/
def trieDelete (t : Finset Key) (k : Key) : Finset Key := t.erase k

/-- The three temporary containers built during a merge
(`sbl.tmpLookup`, `sbl.tmpFullHashes`, `sbl.tmpFullHashRequested`). -/
structure TmpState where
  tmpLookup : Finset Key
  tmpFullHashes : Finset Key
  tmpFullHashRequested : Finset Key
deriving DecidableEq

/-- Entry width selected by `updateLookupMap` from the chunk's prefix type
(source lines 318-326): 0 when the prefix type is unrecognized. -/
def hashlenOf (c : ChunkData) : Nat :=
  if c.PrefixType = PREFIX_4B then PREFIX_4B_SZ
  else if c.PrefixType = PREFIX_32B then PREFIX_32B_SZ
  else 0

/-- Body of the `switch hashlen` / `switch chunk.GetChunkType()` statement of
`updateLookupMap` (source lines 330-355), applied to one extracted entry. -/
def applyHash (t : TmpState) (c : ChunkData) (hashlen : Nat) (hash : Key) :
    TmpState :=
  if hashlen = PREFIX_4B_SZ then
    if c.ChunkType = CHUNK_TYPE_ADD then
      { t with tmpLookup := trieSet t.tmpLookup hash }
    else if c.ChunkType = CHUNK_TYPE_SUB then
      { t with tmpLookup := trieDelete t.tmpLookup hash }
    else t
  else if hashlen = PREFIX_32B_SZ then
    if c.ChunkType = CHUNK_TYPE_ADD then
      { t with tmpFullHashes := trieSet t.tmpFullHashes hash }
    else if c.ChunkType = CHUNK_TYPE_SUB then
      { t with tmpFullHashes := trieDelete t.tmpFullHashes hash,
               tmpFullHashRequested := trieSet t.tmpFullHashRequested hash }
    else t
  else t

/-- Fuel semantics of the entry-splitting loop
`for i := 0; (i + hashlen) <= hasheslen; i += hashlen` (source line 328):
each guard evaluation consumes one unit of fuel, `none` means the fuel ran out
before the loop exited.  With `hashlen = 0` the index never advances, so every
finite fuel is exhausted: that is the source loop's non-termination. -/
def ulmLoop (t : TmpState) (c : ChunkData) (hashlen i fuel : Nat) :
    Option TmpState :=
  match fuel with
  | 0 => none
  | fuel' + 1 =>
    if i + hashlen ≤ c.Hashes.length then
      ulmLoop (applyHash t c hashlen ((c.Hashes.drop i).take hashlen))
        c hashlen (i + hashlen) fuel'
    else some t

/-- `updateLookupMap` (source lines 317-357) with the canonical sufficient
fuel: when `hashlen > 0` the loop performs at most `len / hashlen + 1 ≤ len+1`
guard evaluations, so `some` is exactly termination of the source loop and
`none` exactly its divergence. -/
def updateLookupMap (c : ChunkData) (t : TmpState) : Option TmpState :=
  ulmLoop t c (hashlenOf c) 0 (c.Hashes.length + 1)

/-- Injected environment of one `load` call: which storage operations fail.
`encodeFailsAt = some k` makes the k-th `enc.Encode` call (0-based) fail. -/
structure Env where
  openFails : Bool
  createFails : Bool
  encodeFailsAt : Option Nat
  removeFails : Bool
  renameFails : Bool
deriving DecidableEq

/-- An environment in which every storage operation succeeds. -/
def cleanEnv : Env := ⟨false, false, none, false, false⟩

/-- Does the k-th `enc.Encode` call fail in this environment? -/
def encFails (env : Env) (k : Nat) : Bool := env.encodeFailsAt = some k

/-- Errors `load` can return (the non-nil `err` return values of source lines
148, 214/221, 271, 291, 296). -/
inductive LoadErr
  | decodeErr
  | createErr
  | encodeErr
  | removeErr
  | renameErr
deriving DecidableEq, Repr

/-- The local state of one in-flight `load` call: the kept index maps
(`addChunkIndexes`/`subChunkIndexes`), the three temporary containers, the
records encoded into the temporary log so far, the number of `Encode` calls
made, and the diagnostic counters (source lines 161-179). -/
structure Acc where
  addChunkIndexes : Finset Nat
  subChunkIndexes : Finset Nat
  tmp : TmpState
  newLog : List ChunkData
  encCalls : Nat
  addPrefixCount : Nat
  subPrefixCount : Nat
  addFullHashCount : Nat
  subFullHashCount : Nat
  deletedChunkCount : Nat
  addedChunkCount : Int
deriving DecidableEq

/-- The empty `Acc` at the start of `load` (source lines 161-179). -/
def initAcc : Acc := ⟨∅, ∅, ⟨∅, ∅, ∅⟩, [], 0, 0, 0, 0, 0, 0, 0⟩

/-- Counter reset between the existing-log pass and the delta pass
(source lines 236-241); `addedChunkCount` restarts at `len(newChunks)`. -/
def resetCounters (a : Acc) (n : Int) : Acc :=
  { a with addPrefixCount := 0, subPrefixCount := 0, addFullHashCount := 0,
           subFullHashCount := 0, deletedChunkCount := 0, addedChunkCount := n }

/-- Result of processing one record: success, an error returned from `load`,
or divergence inside `updateLookupMap`. -/
inductive StepRes
  | ok (a : Acc)
  | fail (e : LoadErr)
  | hang
deriving DecidableEq

/-- The shared four-bucket classification chain of both loops (source lines
195-206 and 251-262): a recognized record puts its number into the kept index
map of its chunk type and bumps the matching entry counter; any other record
leaves the accumulator unchanged (only a warning is logged). -/
def classify (a : Acc) (c : ChunkData) : Acc :=
  let cast := c.ChunkNumber
  if c.ChunkType = CHUNK_TYPE_ADD ∧ c.PrefixType = PREFIX_4B then
    { a with addChunkIndexes := insert cast a.addChunkIndexes,
             addPrefixCount := a.addPrefixCount + c.Hashes.length / PREFIX_4B_SZ }
  else if c.ChunkType = CHUNK_TYPE_ADD ∧ c.PrefixType = PREFIX_32B then
    { a with addChunkIndexes := insert cast a.addChunkIndexes,
             addFullHashCount := a.addFullHashCount + c.Hashes.length / PREFIX_32B_SZ }
  else if c.ChunkType = CHUNK_TYPE_SUB ∧ c.PrefixType = PREFIX_4B then
    { a with subChunkIndexes := insert cast a.subChunkIndexes,
             subPrefixCount := a.subPrefixCount + c.Hashes.length / PREFIX_4B_SZ }
  else if c.ChunkType = CHUNK_TYPE_SUB ∧ c.PrefixType = PREFIX_32B then
    { a with subChunkIndexes := insert cast a.subChunkIndexes,
             subFullHashCount := a.subFullHashCount + c.Hashes.length / PREFIX_32B_SZ }
  else a

/-- A record falls into one of the four recognized buckets. -/
def recognized (c : ChunkData) : Prop :=
  (c.ChunkType = CHUNK_TYPE_ADD ∨ c.ChunkType = CHUNK_TYPE_SUB) ∧
  (c.PrefixType = PREFIX_4B ∨ c.PrefixType = PREFIX_32B)

instance (c : ChunkData) : Decidable (recognized c) := by
  unfold recognized; infer_instance

/-- The tail both loops run on a record that survives their if-chain:
`enc.Encode(chunk)` (failure returned from `load`, source lines 211-216 and
269-274) followed by `sbl.updateLookupMap(chunk)` (source lines 217 and
275). -/
def encodeAndApply (env : Env) (a : Acc) (c : ChunkData) : StepRes :=
  if encFails env a.encCalls then .fail .encodeErr
  else
    match updateLookupMap c a.tmp with
    | none => .hang
    | some t => .ok { a with newLog := a.newLog ++ [c],
                             encCalls := a.encCalls + 1, tmp := t }

/-- One iteration of the existing-log loop (source lines 184-219): a record
whose (type, number) is in `DeleteChunks` is skipped; every other record —
recognized or not — is classified, encoded into the new log, applied to the
temporary containers, and counted as added. -/
def stepExisting (env : Env) (del : Finset (Nat × Nat)) (a : Acc)
    (c : ChunkData) : StepRes :=
  if (c.ChunkType, c.ChunkNumber) ∈ del then
    .ok { a with deletedChunkCount := a.deletedChunkCount + 1 }
  else
    match encodeAndApply env (classify a c) c with
    | .ok a2 => .ok { a2 with addedChunkCount := a2.addedChunkCount + 1 }
    | r => r

/-- One iteration of the delta loop (source lines 245-276): a record whose
(type, number) is in `DeleteChunks` is skipped, an unrecognized record is also
skipped (both decrement `addedChunkCount`); a recognized record is classified,
encoded and applied. -/
def stepNew (env : Env) (del : Finset (Nat × Nat)) (a : Acc)
    (c : ChunkData) : StepRes :=
  if (c.ChunkType, c.ChunkNumber) ∈ del then
    .ok { a with addedChunkCount := a.addedChunkCount - 1 }
  else if recognized c then
    encodeAndApply env (classify a c) c
  else
    .ok { a with addedChunkCount := a.addedChunkCount - 1 }

/-- Run a per-record step over a list of records, stopping at the first error
or divergence (the `for` loops of `load`). -/
def foldSteps (step : Acc → ChunkData → StepRes) : Acc → List ChunkData →
    StepRes
  | a, [] => .ok a
  | a, c :: cs =>
    match step a c with
    | .ok a' => foldSteps step a' cs
    | r => r

/-- The two streaming passes of `load` (source lines 181-277): the existing
persisted records in on-disk order, then — if the existing stream did not end
in a decode error (`if err != io.EOF`, line 220) — the delta records, with the
diagnostic counters reset in between (lines 236-241). -/
def loadCore (env : Env) (del : Finset (Nat × Nat)) (old : List ChunkData)
    (corrupt : Bool) (newChunks : List ChunkData) : StepRes :=
  match foldSteps (stepExisting env del) initAcc old with
  | .ok a1 =>
    if corrupt then .fail .decodeErr
    else foldSteps (stepNew env del) (resetCounters a1 (Int.ofNat newChunks.length)) newChunks
  | r => r

/-- Content of one persisted log file, abstracted to what its gob stream
decodes to: the record sequence, and whether decoding afterwards fails with a
non-EOF error (a clean stream ends with `io.EOF`). -/
structure FileContent where
  records : List ChunkData
  corrupt : Bool
deriving DecidableEq

/-- The two on-disk paths `load` touches: `sbl.FileName` and
`sbl.FileName + ".tmp"`. -/
structure Disk where
  mainFile : Option FileContent
  tmpFile : Option FileContent
deriving DecidableEq

/-- The claim-relevant fields of `SafeBrowsingList`.  `DeleteChunks` is the
pending-deletion map keyed by (chunk type, chunk number); `ChunkRanges` is
`none` while the Go map is nil (before the first successful merge).  The
identity fields, the full-hash cache, the logger, the lock and the `tmp*`
scratch fields (locals of a merge in this model) are omitted: `load` either
does not touch them or they are out of the embedding's scope. -/
structure SafeBrowsingList where
  Lookup : Finset Key
  FullHashes : Finset Key
  FullHashRequested : Finset Key
  DeleteChunks : Finset (Nat × Nat)
  ChunkRanges : Option (String × String)
deriving DecidableEq

/-- Maximal runs of consecutive numbers of an ascending list, each run as
(first, last). -/
def rangeRuns : Nat → Nat → List Nat → List (Nat × Nat)
  | start, last, [] => [(start, last)]
  | start, last, n :: rest =>
    if n = last + 1 then rangeRuns start n rest
    else (start, last) :: rangeRuns n n rest

/-- The separator of the range encoding. -/
def commaSep : String := ","

/-- Textual form of one run: `n` for a singleton, `a-b` otherwise. -/
def renderRun (p : Nat × Nat) : String :=
  if p.1 = p.2 then toString p.1 else toString p.1 ++ "-" ++ toString p.2

/-- Ascending list of the members of a finite set of naturals. -/
def ascMembers (s : Finset Nat) : List Nat :=
  (List.range (s.sup id + 1)).filter (fun n => decide (n ∈ s))

/-- Modelled from the spec: `buildChunkRanges` (defined outside the analysed
sources) encodes a finite set of chunk numbers as the comma-joined ascending
list of maximal consecutive runs, §4.2 (deterministic, iteration-order
independent: the members are enumerated in ascending order). -/
def buildChunkRanges (s : Finset Nat) : String :=
  match ascMembers s with
  | [] => ""
  | n :: rest => commaSep.intercalate ((rangeRuns n n rest).map renderRun)

/-- What one `load` call returns and leaves behind: the Go function mutates
the receiver in place, so the (possibly partially updated) list state and the
disk are part of the outcome even when an error is returned. -/
structure LoadResult where
  err : Option LoadErr
  sbl : SafeBrowsingList
  disk : Disk
deriving DecidableEq

/-- Records the existing-log pass will see: none when the file is absent or
`os.Open` failed (a non-NotExist open error is only warned about and the file
treated as empty, source lines 129-132). -/
def effOld (env : Env) (disk : Disk) : List ChunkData :=
  if disk.mainFile.isSome ∧ env.openFails = false then
    (disk.mainFile.getD ⟨[], false⟩).records
  else []

/-- Whether the stream the existing-log pass reads ends in a decode error. -/
def effCorrupt (env : Env) (disk : Disk) : Bool :=
  if disk.mainFile.isSome ∧ env.openFails = false then
    (disk.mainFile.getD ⟨[], false⟩).corrupt
  else false

/-- Is a readable stream of the existing log open (`f != nil`, source lines
129-143)?  True when the file exists and `os.Open` did not fail. -/
def fOpen (env : Env) (disk : Disk) : Prop :=
  disk.mainFile.isSome ∧ env.openFails = false

instance (env : Env) (disk : Disk) : Decidable (fOpen env disk) := by
  unfold fOpen; infer_instance

/-- `load` (source lines 121-315).  `none` is divergence inside
`updateLookupMap`.  The deferred `close_tmp_file` removes the temporary file on
every return path after a successful `os.Create` (lines 150-156); the live
containers are replaced before the remove/rename of the log files
(lines 279-297); `ChunkRanges` is rebuilt and `DeleteChunks` cleared only after
a successful rename (lines 299-303). -/
def load (env : Env) (sbl : SafeBrowsingList) (disk : Disk)
    (newChunks : List ChunkData) : Option LoadResult :=
  if env.createFails then
    some ⟨some .createErr, sbl, disk⟩
  else
    match loadCore env sbl.DeleteChunks (effOld env disk) (effCorrupt env disk)
        newChunks with
    | .hang => none
    | .fail e => some ⟨some e, sbl, ⟨disk.mainFile, none⟩⟩
    | .ok a =>
      if fOpen env disk ∧ env.removeFails = true then
        some ⟨some .removeErr,
          { sbl with Lookup := a.tmp.tmpLookup,
                     FullHashes := a.tmp.tmpFullHashes,
                     FullHashRequested := a.tmp.tmpFullHashRequested },
          ⟨disk.mainFile, none⟩⟩
      else if env.renameFails then
        some ⟨some .renameErr,
          { sbl with Lookup := a.tmp.tmpLookup,
                     FullHashes := a.tmp.tmpFullHashes,
                     FullHashRequested := a.tmp.tmpFullHashRequested },
          ⟨if fOpen env disk then none else disk.mainFile, none⟩⟩
      else
        some ⟨none,
          { Lookup := a.tmp.tmpLookup,
            FullHashes := a.tmp.tmpFullHashes,
            FullHashRequested := a.tmp.tmpFullHashRequested,
            DeleteChunks := ∅,
            ChunkRanges := some (buildChunkRanges a.addChunkIndexes,
                                 buildChunkRanges a.subChunkIndexes) },
          ⟨some ⟨a.newLog, false⟩, none⟩⟩

/-- Outcome of `loadDataFromRedirectLists` (source lines 83-119): early return
when no redirect sources are pending, a runtime panic (`newChunks[0]` on an
empty slice, line 115) when the fetched sources decode to zero chunks, or a
run of `load`. -/
inductive SyncOutcome
  | noUpdates (sbl : SafeBrowsingList) (disk : Disk)
  | panicked (sbl : SafeBrowsingList) (disk : Disk)
  | ran (r : Option LoadResult)
deriving DecidableEq

/-- `loadDataFromRedirectLists` (source lines 83-119), with the network fetch
and `ReadChunk` wire decoding abstracted: `fetched` is the per-redirect list of
decoded chunks (a transport or wire-decode failure returns before any state is
touched and is outside the claims).  Modelled from the spec: `request` and
`ReadChunk` are not among the analysed sources. -/
def loadDataFromRedirectLists (env : Env) (sbl : SafeBrowsingList) (disk : Disk)
    (fetched : List (List ChunkData)) : SyncOutcome :=
  if fetched.length < 1 then .noUpdates sbl disk
  else
    match fetched.flatten with
    | [] => .panicked sbl disk
    | c :: cs => .ran (load env sbl disk (c :: cs))

/-! ### Entry extraction: the fixed-width slices the loop visits -/

/-- The aligned fixed-width entries the loop of `updateLookupMap` extracts
from a hash blob: `floor (hs.length / w)` slices of width `w`. -/
def entriesW (w : Nat) (hs : List Nat) : List Key :=
  if _h : 0 < w ∧ w ≤ hs.length then hs.take w :: entriesW w (hs.drop w)
  else []
termination_by hs.length
decreasing_by
  simp only [List.length_drop]
  omega

/-! ### Concrete fixtures used by witnesses and counterexamples -/

/-- A fresh list state: empty containers, no pending deletions, nil range map. -/
def sbl0 : SafeBrowsingList := ⟨∅, ∅, ∅, ∅, none⟩

/-- Empty disk: no persisted log, no temporary file. -/
def disk0 : Disk := ⟨none, none⟩

/-- Empty temporary containers. -/
def emptyTmp : TmpState := ⟨∅, ∅, ∅⟩

/-- ADD chunk #1 of 4-byte prefixes `abcd` and `efgh`. -/
def chunkAdd4 : ChunkData :=
  ⟨1, CHUNK_TYPE_ADD, PREFIX_4B, [97, 98, 99, 100, 101, 102, 103, 104]⟩

/-- A chunk whose chunk type 2 is outside the recognized enum. -/
def chunkUnrec : ChunkData := ⟨9, 2, PREFIX_4B, [1, 2, 3, 4]⟩

/-- A chunk whose prefix type 5 selects no entry width. -/
def chunkBadWidth : ChunkData := ⟨3, CHUNK_TYPE_ADD, 5, []⟩

/-- An ADD-4B chunk with ten bytes: two full entries and a trailing fragment. -/
def chunkTen : ChunkData :=
  ⟨4, CHUNK_TYPE_ADD, PREFIX_4B, [1, 2, 3, 4, 5, 6, 7, 8, 9, 10]⟩

/-- A 32-byte full hash. -/
def hash32 : Key := List.replicate 32 7

/-- SUB full-hash chunk #1 retracting `hash32`. -/
def chunkSubFull : ChunkData := ⟨1, CHUNK_TYPE_SUB, PREFIX_32B, hash32⟩

/-- ADD full-hash chunk #2 advertising `hash32`. -/
def chunkAddFull : ChunkData := ⟨2, CHUNK_TYPE_ADD, PREFIX_32B, hash32⟩

/-- Environment in which only `os.Remove` of the old log fails. -/
def envRemoveFail : Env := ⟨false, false, none, true, false⟩

/-- Environment in which only `os.Create` of the temporary log fails. -/
def envCreateFail : Env := ⟨false, true, none, false, false⟩

/-- Environment in which only `os.Open` of the existing log fails. -/
def envOpenFail : Env := ⟨true, false, none, false, false⟩

/-- A disk holding a persisted log with the single record `chunkAdd4`. -/
def diskA : Disk := ⟨some ⟨[chunkAdd4], false⟩, none⟩

/-- Invariant stating that a deleted (type, number) pair never makes it into
the kept index maps and that a deleted record never makes it into the new
log. -/
def DelInv (c : ChunkData) (a : Acc) : Prop :=
  (c.ChunkType = CHUNK_TYPE_ADD → c.ChunkNumber ∉ a.addChunkIndexes) ∧
  (c.ChunkType = CHUNK_TYPE_SUB → c.ChunkNumber ∉ a.subChunkIndexes) ∧
  c ∉ a.newLog

/-- Result accessor used by concrete witness runs of `loadCore`. -/
def okAcc (r : StepRes) : Acc :=
  match r with
  | .ok a => a
  | _ => initAcc

/-- The deletion set instructing removal of ADD chunk 1. -/
def delAdd1 : Finset (Nat × Nat) := {(CHUNK_TYPE_ADD, 1)}

/-- Accumulator of a concrete merge of old log `[chunkAdd4]` under
`delAdd1`. -/
def accC3 : Acc := okAcc (loadCore cleanEnv delAdd1 [chunkAdd4] false [])

/-- Outcome of merging an existing log that holds only the unrecognized record
`chunkUnrec`, with an empty delta. -/
def resC2 : LoadResult :=
  (load cleanEnv sbl0 ⟨some ⟨[chunkUnrec], false⟩, none⟩ []).getD
    ⟨none, sbl0, disk0⟩

/-- Outcome of a merge over the existing log `[chunkAdd4]` in which
`os.Remove` of the old log fails. -/
def resC1 : LoadResult :=
  (load envRemoveFail sbl0 diskA []).getD ⟨none, sbl0, disk0⟩

/-- Outcome of a merge in which creating the temporary log fails. -/
def resC1w : LoadResult :=
  (load envCreateFail sbl0 diskA []).getD ⟨none, sbl0, disk0⟩

/-- Outcome of a merge over the existing log `[chunkAdd4]` in which `os.Open`
of that log fails with a non-NotExist error. -/
def resC8 : LoadResult :=
  (load envOpenFail sbl0 diskA []).getD ⟨none, sbl0, disk0⟩

/-- Set of chunk numbers of the records of chunk type `T` in a log. -/
def logNums (T : Nat) (log : List ChunkData) : Finset Nat :=
  ((log.filter (fun c => decide (c.ChunkType = T))).map
    ChunkData.ChunkNumber).toFinset

/-- Invariant tying the kept index maps to the records already written to the
new log. -/
def IdxInv (a : Acc) : Prop :=
  a.addChunkIndexes = logNums CHUNK_TYPE_ADD a.newLog ∧
  a.subChunkIndexes = logNums CHUNK_TYPE_SUB a.newLog

/-- Outcome of a clean first merge of the delta `[chunkAdd4]` on a fresh
list. -/
def resA : LoadResult :=
  (load cleanEnv sbl0 disk0 [chunkAdd4]).getD ⟨none, sbl0, disk0⟩

/-- The record would re-insert the 32-byte value `h` into the full-hash
container when processed: it is not scheduled for deletion, and it is an
ADD full-hash record one of whose aligned entries is `h`. -/
def reAddsFull (del : Finset (Nat × Nat)) (h : Key) (c : ChunkData) : Prop :=
  (c.ChunkType, c.ChunkNumber) ∉ del ∧ c.ChunkType = CHUNK_TYPE_ADD ∧
  c.PrefixType = PREFIX_32B ∧ h ∈ entriesW PREFIX_32B_SZ c.Hashes

/-- Outcome of merging an existing log holding SUB-full then ADD-full records
for the same hash, with an empty delta. -/
def resC4 : LoadResult :=
  (load cleanEnv sbl0 ⟨some ⟨[chunkSubFull, chunkAddFull], false⟩, none⟩
    []).getD ⟨none, sbl0, disk0⟩

/-- Outcome of merging an existing log holding only the SUB-full record. -/
def resC4w : LoadResult :=
  (load cleanEnv sbl0 ⟨some ⟨[chunkSubFull], false⟩, none⟩ []).getD
    ⟨none, sbl0, disk0⟩

/-- Agreement of two accumulators on everything a later merge can observe:
kept index maps, temporary containers, and the log written so far (the
diagnostic counters are excluded). -/
def AccCoreEq (x y : Acc) : Prop :=
  x.addChunkIndexes = y.addChunkIndexes ∧
  x.subChunkIndexes = y.subChunkIndexes ∧ x.tmp = y.tmp ∧ x.newLog = y.newLog

/-- The log written so far replays: running the clean existing-log pass over
`x.newLog` rebuilds exactly the observable part of `x`. -/
def Replays (x : Acc) : Prop :=
  ∃ y, foldSteps (stepExisting cleanEnv ∅) initAcc x.newLog = .ok y ∧
    AccCoreEq y x

theorem entriesW_length (w : Nat) (hw : 0 < w) :
    ∀ n (hs : List Nat), hs.length = n →
      (entriesW w hs).length = hs.length / w := by
  intro n
  induction n using Nat.strong_induction_on with
  | _ n ih =>
    intro hs hn
    rw [entriesW]
    split_ifs with h
    · have hrec := ih ((hs.drop w).length) (by simp; omega) (hs.drop w) rfl
      simp only [List.length_cons, hrec, List.length_drop]
      rw [Nat.div_eq_sub_div hw h.2]
    · have : hs.length < w := by omega
      simp [Nat.div_eq_of_lt this]

theorem entriesW_width (w : Nat) :
    ∀ n (hs : List Nat), hs.length = n →
      ∀ e ∈ entriesW w hs, e.length = w := by
  intro n
  induction n using Nat.strong_induction_on with
  | _ n ih =>
    intro hs hn e he
    rw [entriesW] at he
    split_ifs at he with h
    · rcases List.mem_cons.mp he with rfl | htail
      · simp [List.length_take]; omega
      · exact ih ((hs.drop w).length) (by simp; omega) (hs.drop w) rfl e htail
    · simp at he

theorem entriesW_flatten (w : Nat) (hw : 0 < w) :
    ∀ n (hs : List Nat), hs.length = n →
      (entriesW w hs).flatten = hs.take ((hs.length / w) * w) := by
  intro n
  induction n using Nat.strong_induction_on with
  | _ n ih =>
    intro hs hn
    rw [entriesW]
    split_ifs with h
    · have hrec := ih ((hs.drop w).length) (by simp; omega) (hs.drop w) rfl
      simp only [List.flatten_cons, hrec, List.length_drop]
      rw [Nat.div_eq_sub_div hw h.2, Nat.add_mul, Nat.one_mul,
        Nat.add_comm ((hs.length - w) / w * w) w, List.take_add]
    · have : hs.length < w := by omega
      simp [Nat.div_eq_of_lt this]

/-! ### The entry loop: termination, divergence, and its foldl form -/

theorem ulmLoop_eq_foldl (c : ChunkData) (w : Nat) (hw : 0 < w) :
    ∀ (fuel i : Nat) (t : TmpState), c.Hashes.length - i + 1 ≤ fuel →
      ulmLoop t c w i fuel =
        some ((entriesW w (c.Hashes.drop i)).foldl
          (fun s e => applyHash s c w e) t) := by
  intro fuel
  induction fuel with
  | zero => intro i t hf; omega
  | succ fuel ih =>
    intro i t hf
    rw [ulmLoop]
    split_ifs with hg
    · rw [ih (i + w) _ (by omega)]
      have hcond : 0 < w ∧ w ≤ (c.Hashes.drop i).length := by
        simp only [List.length_drop]; omega
      conv_rhs => rw [entriesW, dif_pos hcond]
      simp only [List.foldl_cons]
      rw [List.drop_drop]
    · rw [entriesW]
      have hcond : ¬(0 < w ∧ w ≤ (c.Hashes.drop i).length) := by
        simp only [List.length_drop]; omega
      rw [dif_neg hcond]
      simp

theorem ulmLoop_zero_none (c : ChunkData) :
    ∀ (fuel i : Nat) (t : TmpState), i ≤ c.Hashes.length →
      ulmLoop t c 0 i fuel = none := by
  intro fuel
  induction fuel with
  | zero => intro i t hi; rfl
  | succ fuel ih =>
    intro i t hi
    rw [ulmLoop]
    rw [if_pos (by omega)]
    exact ih (i + 0) _ (by omega)

/-- Selected entry width per prefix type. -/
theorem hashlenOf_4 (c : ChunkData) (h : c.PrefixType = PREFIX_4B) :
    hashlenOf c = PREFIX_4B_SZ := by
  simp [hashlenOf, h]

theorem hashlenOf_32 (c : ChunkData) (h : c.PrefixType = PREFIX_32B) :
    hashlenOf c = PREFIX_32B_SZ := by
  simp [hashlenOf, h, PREFIX_4B, PREFIX_32B, PREFIX_32B_SZ]

theorem hashlenOf_0 (c : ChunkData) (h4 : c.PrefixType ≠ PREFIX_4B)
    (h32 : c.PrefixType ≠ PREFIX_32B) : hashlenOf c = 0 := by
  simp [hashlenOf, h4, h32]

theorem updateLookupMap_eq_foldl (c : ChunkData) (t : TmpState)
    (hw : 0 < hashlenOf c) :
    updateLookupMap c t =
      some ((entriesW (hashlenOf c) c.Hashes).foldl
        (fun s e => applyHash s c (hashlenOf c) e) t) := by
  unfold updateLookupMap
  rw [ulmLoop_eq_foldl c (hashlenOf c) hw _ 0 t (by omega)]
  simp

theorem updateLookupMap_isSome (c : ChunkData) (t : TmpState)
    (hw : 0 < hashlenOf c) : (updateLookupMap c t).isSome = true := by
  rw [updateLookupMap_eq_foldl c t hw]; rfl

theorem updateLookupMap_none (c : ChunkData) (t : TmpState)
    (h0 : hashlenOf c = 0) : updateLookupMap c t = none := by
  unfold updateLookupMap
  rw [h0]
  exact ulmLoop_zero_none c _ 0 t (by omega)

/-! ### Effect of one entry on the temporary containers -/

theorem applyHash_fhr_mono (t : TmpState) (c : ChunkData) (w : Nat) (h : Key) :
    t.tmpFullHashRequested ⊆ (applyHash t c w h).tmpFullHashRequested := by
  unfold applyHash
  split_ifs <;> simp [trieSet, Finset.subset_insert, Finset.Subset.refl]

theorem applyHash_fh_pres (t : TmpState) (c : ChunkData) (w : Nat) (h x : Key)
    (hx : x ∉ t.tmpFullHashes)
    (hno : ¬(w = PREFIX_32B_SZ ∧ c.ChunkType = CHUNK_TYPE_ADD ∧ x = h)) :
    x ∉ (applyHash t c w h).tmpFullHashes := by
  unfold applyHash
  split_ifs with h1 h2 h3 h4 h5 h6 <;>
    simp_all [trieSet, trieDelete, Finset.mem_insert, Finset.mem_erase]

theorem foldl_applyHash_fhr_mono (c : ChunkData) (w : Nat) :
    ∀ (es : List Key) (t : TmpState),
      t.tmpFullHashRequested ⊆
        (es.foldl (fun s e => applyHash s c w e) t).tmpFullHashRequested := by
  intro es
  induction es with
  | nil => intro t; exact Finset.Subset.refl _
  | cons e es ih =>
    intro t
    exact (applyHash_fhr_mono t c w e).trans (ih (applyHash t c w e))

theorem foldl_applyHash_fh_pres (c : ChunkData) (w : Nat) (x : Key) :
    ∀ (es : List Key) (t : TmpState), x ∉ t.tmpFullHashes →
      (w = PREFIX_32B_SZ → c.ChunkType = CHUNK_TYPE_ADD → x ∉ es) →
      x ∉ (es.foldl (fun s e => applyHash s c w e) t).tmpFullHashes := by
  intro es
  induction es with
  | nil => intro t hx _; exact hx
  | cons e es ih =>
    intro t hx hsafe
    simp only [List.foldl_cons]
    refine ih (applyHash t c w e) ?_ ?_
    · refine applyHash_fh_pres t c w e x hx ?_
      rintro ⟨hw, hc, rfl⟩
      exact (hsafe hw hc) (List.mem_cons_self x es)
    · intro hw hc
      intro hmem
      exact (hsafe hw hc) (List.mem_cons_of_mem e hmem)

theorem applyHash_sub32 (t : TmpState) (c : ChunkData) (h : Key)
    (hc : c.ChunkType = CHUNK_TYPE_SUB) :
    applyHash t c PREFIX_32B_SZ h =
      { t with tmpFullHashes := trieDelete t.tmpFullHashes h,
               tmpFullHashRequested := trieSet t.tmpFullHashRequested h } := by
  unfold applyHash
  simp [hc, PREFIX_4B_SZ, PREFIX_32B_SZ, CHUNK_TYPE_ADD, CHUNK_TYPE_SUB]

theorem foldl_sub32_kills (c : ChunkData) (hc : c.ChunkType = CHUNK_TYPE_SUB)
    (h : Key) :
    ∀ (es : List Key) (t : TmpState), h ∈ es →
      h ∉ (es.foldl (fun s e => applyHash s c PREFIX_32B_SZ e) t).tmpFullHashes ∧
      h ∈ (es.foldl (fun s e => applyHash s c PREFIX_32B_SZ e) t).tmpFullHashRequested := by
  intro es
  induction es with
  | nil => intro t hmem; cases hmem
  | cons e es ih =>
    intro t hmem
    simp only [List.foldl_cons]
    rcases List.mem_cons.mp hmem with rfl | htail
    · by_cases hrest : h ∈ es
      · exact ih _ hrest
      · constructor
        · refine foldl_applyHash_fh_pres c PREFIX_32B_SZ h es _ ?_ ?_
          · rw [applyHash_sub32 _ c h hc]
            simp [trieDelete]
          · intro _ hcadd
            rw [hc] at hcadd
            simp [CHUNK_TYPE_ADD, CHUNK_TYPE_SUB] at hcadd
        · refine foldl_applyHash_fhr_mono c PREFIX_32B_SZ es _ ?_
          rw [applyHash_sub32 _ c h hc]
          simp [trieSet]
    · exact ih _ htail

/-! ### Effect of one whole record through `updateLookupMap` -/

theorem updateLookupMap_fhr_mono (c : ChunkData) (t t' : TmpState)
    (hu : updateLookupMap c t = some t') :
    t.tmpFullHashRequested ⊆ t'.tmpFullHashRequested := by
  by_cases hw : 0 < hashlenOf c
  · rw [updateLookupMap_eq_foldl c t hw] at hu
    cases hu
    exact foldl_applyHash_fhr_mono c (hashlenOf c) _ t
  · rw [updateLookupMap_none c t (by omega)] at hu
    cases hu

theorem updateLookupMap_fh_pres (c : ChunkData) (t t' : TmpState) (x : Key)
    (hu : updateLookupMap c t = some t') (hx : x ∉ t.tmpFullHashes)
    (hsafe : ¬(c.ChunkType = CHUNK_TYPE_ADD ∧ c.PrefixType = PREFIX_32B ∧
      x ∈ entriesW PREFIX_32B_SZ c.Hashes)) :
    x ∉ t'.tmpFullHashes := by
  by_cases hw : 0 < hashlenOf c
  · rw [updateLookupMap_eq_foldl c t hw] at hu
    cases hu
    refine foldl_applyHash_fh_pres c (hashlenOf c) x _ t hx ?_
    intro hw32 hcadd
    have hp32 : c.PrefixType = PREFIX_32B := by
      by_contra hp
      by_cases hp4 : c.PrefixType = PREFIX_4B
      · rw [hashlenOf_4 c hp4] at hw32
        simp [PREFIX_4B_SZ, PREFIX_32B_SZ] at hw32
      · rw [hashlenOf_0 c hp4 hp] at hw32
        simp [PREFIX_32B_SZ] at hw32
    intro hmem
    rw [hw32] at hmem
    exact hsafe ⟨hcadd, hp32, hmem⟩
  · rw [updateLookupMap_none c t (by omega)] at hu
    cases hu

theorem updateLookupMap_sub32 (c : ChunkData) (t t' : TmpState) (h : Key)
    (hu : updateLookupMap c t = some t') (hc : c.ChunkType = CHUNK_TYPE_SUB)
    (hp : c.PrefixType = PREFIX_32B)
    (hmem : h ∈ entriesW PREFIX_32B_SZ c.Hashes) :
    h ∉ t'.tmpFullHashes ∧ h ∈ t'.tmpFullHashRequested := by
  have hw : hashlenOf c = PREFIX_32B_SZ := hashlenOf_32 c hp
  rw [updateLookupMap_eq_foldl c t (by rw [hw]; simp [PREFIX_32B_SZ])] at hu
  rw [hw] at hu
  cases hu
  exact foldl_sub32_kills c hc h _ t hmem

/-! ### Shape of `classify` and of the per-record steps -/

theorem classify_tmp (a : Acc) (c : ChunkData) : (classify a c).tmp = a.tmp := by
  unfold classify; split_ifs <;> rfl

theorem classify_newLog (a : Acc) (c : ChunkData) :
    (classify a c).newLog = a.newLog := by
  unfold classify; split_ifs <;> rfl

theorem classify_encCalls (a : Acc) (c : ChunkData) :
    (classify a c).encCalls = a.encCalls := by
  unfold classify; split_ifs <;> rfl

theorem classify_addedChunkCount (a : Acc) (c : ChunkData) :
    (classify a c).addedChunkCount = a.addedChunkCount := by
  unfold classify; split_ifs <;> rfl

theorem classify_addIdx (a : Acc) (c : ChunkData) :
    (classify a c).addChunkIndexes =
      if c.ChunkType = CHUNK_TYPE_ADD ∧
          (c.PrefixType = PREFIX_4B ∨ c.PrefixType = PREFIX_32B) then
        insert c.ChunkNumber a.addChunkIndexes
      else a.addChunkIndexes := by
  unfold classify
  split_ifs <;> first | rfl | tauto

theorem classify_subIdx (a : Acc) (c : ChunkData) :
    (classify a c).subChunkIndexes =
      if c.ChunkType = CHUNK_TYPE_SUB ∧
          (c.PrefixType = PREFIX_4B ∨ c.PrefixType = PREFIX_32B) then
        insert c.ChunkNumber a.subChunkIndexes
      else a.subChunkIndexes := by
  unfold classify
  split_ifs <;>
    first
    | rfl
    | tauto
    | (exfalso; simp_all [CHUNK_TYPE_ADD, CHUNK_TYPE_SUB])

theorem classify_unrecognized (a : Acc) (c : ChunkData)
    (h : ¬recognized c) : classify a c = a := by
  unfold recognized at h
  unfold classify
  split_ifs <;> tauto

theorem encodeAndApply_ok (env : Env) (a : Acc) (c : ChunkData) (a2 : Acc)
    (h : encodeAndApply env a c = .ok a2) :
    encFails env a.encCalls = false ∧
    ∃ t, updateLookupMap c a.tmp = some t ∧
      a2 = { a with newLog := a.newLog ++ [c], encCalls := a.encCalls + 1,
                    tmp := t } := by
  unfold encodeAndApply at h
  by_cases he : encFails env a.encCalls
  · rw [if_pos he] at h; cases h
  · rw [if_neg he] at h
    refine ⟨by simpa using he, ?_⟩
    cases hu : updateLookupMap c a.tmp with
    | none => rw [hu] at h; cases h
    | some t =>
      rw [hu] at h
      cases h
      exact ⟨t, rfl, rfl⟩

theorem encodeAndApply_cases (env : Env) (a : Acc) (c : ChunkData) :
    encodeAndApply env a c = .fail .encodeErr ∨
    encodeAndApply env a c = .hang ∨
    ∃ a2, encodeAndApply env a c = .ok a2 := by
  unfold encodeAndApply
  by_cases he : encFails env a.encCalls
  · rw [if_pos he]; exact Or.inl rfl
  · rw [if_neg he]
    cases updateLookupMap c _ with
    | none => exact Or.inr (Or.inl rfl)
    | some t => exact Or.inr (Or.inr ⟨_, rfl⟩)

theorem stepExisting_del (env : Env) (del : Finset (Nat × Nat)) (a : Acc)
    (c : ChunkData) (h : (c.ChunkType, c.ChunkNumber) ∈ del) :
    stepExisting env del a c =
      .ok { a with deletedChunkCount := a.deletedChunkCount + 1 } := by
  unfold stepExisting
  rw [if_pos h]

theorem stepNew_del (env : Env) (del : Finset (Nat × Nat)) (a : Acc)
    (c : ChunkData) (h : (c.ChunkType, c.ChunkNumber) ∈ del) :
    stepNew env del a c =
      .ok { a with addedChunkCount := a.addedChunkCount - 1 } := by
  unfold stepNew
  rw [if_pos h]

theorem stepNew_unrecognized (env : Env) (del : Finset (Nat × Nat)) (a : Acc)
    (c : ChunkData) (hdel : (c.ChunkType, c.ChunkNumber) ∉ del)
    (hrec : ¬recognized c) :
    stepNew env del a c =
      .ok { a with addedChunkCount := a.addedChunkCount - 1 } := by
  unfold stepNew
  rw [if_neg hdel, if_neg hrec]

theorem stepExisting_ok (env : Env) (del : Finset (Nat × Nat)) (a : Acc)
    (c : ChunkData) (a' : Acc) (h : stepExisting env del a c = .ok a') :
    ((c.ChunkType, c.ChunkNumber) ∈ del ∧
      a' = { a with deletedChunkCount := a.deletedChunkCount + 1 }) ∨
    ((c.ChunkType, c.ChunkNumber) ∉ del ∧
      ∃ t, updateLookupMap c a.tmp = some t ∧
        a' = { classify a c with newLog := a.newLog ++ [c],
                                 encCalls := a.encCalls + 1, tmp := t,
                                 addedChunkCount := a.addedChunkCount + 1 }) := by
  unfold stepExisting at h
  by_cases hdel : (c.ChunkType, c.ChunkNumber) ∈ del
  · rw [if_pos hdel] at h
    cases h
    exact Or.inl ⟨hdel, rfl⟩
  · rw [if_neg hdel] at h
    refine Or.inr ⟨hdel, ?_⟩
    cases hea : encodeAndApply env (classify a c) c with
    | ok a2 =>
      rw [hea] at h
      cases h
      obtain ⟨-, t, ht, rfl⟩ := encodeAndApply_ok env _ c a2 hea
      refine ⟨t, ?_, ?_⟩
      · rwa [classify_tmp a c] at ht
      · rw [classify_newLog a c, classify_encCalls a c]
        unfold classify
        split_ifs <;> rfl
    | fail e => rw [hea] at h; cases h
    | hang => rw [hea] at h; cases h

theorem stepNew_ok (env : Env) (del : Finset (Nat × Nat)) (a : Acc)
    (c : ChunkData) (a' : Acc) (h : stepNew env del a c = .ok a') :
    (((c.ChunkType, c.ChunkNumber) ∈ del ∨ ¬recognized c) ∧
      a' = { a with addedChunkCount := a.addedChunkCount - 1 }) ∨
    ((c.ChunkType, c.ChunkNumber) ∉ del ∧ recognized c ∧
      ∃ t, updateLookupMap c a.tmp = some t ∧
        a' = { classify a c with newLog := a.newLog ++ [c],
                                 encCalls := a.encCalls + 1, tmp := t }) := by
  unfold stepNew at h
  by_cases hdel : (c.ChunkType, c.ChunkNumber) ∈ del
  · rw [if_pos hdel] at h
    cases h
    exact Or.inl ⟨Or.inl hdel, rfl⟩
  · rw [if_neg hdel] at h
    by_cases hrec : recognized c
    · rw [if_pos hrec] at h
      refine Or.inr ⟨hdel, hrec, ?_⟩
      obtain ⟨-, t, ht, rfl⟩ := encodeAndApply_ok env _ c a' h
      refine ⟨t, ?_, ?_⟩
      · rwa [classify_tmp a c] at ht
      · rw [classify_newLog a c, classify_encCalls a c]
    · rw [if_neg hrec] at h
      cases h
      exact Or.inl ⟨Or.inr hrec, rfl⟩

/-! ### Folding the per-record steps -/

theorem foldSteps_append (step : Acc → ChunkData → StepRes) :
    ∀ (l1 l2 : List ChunkData) (a : Acc),
      foldSteps step a (l1 ++ l2) =
        match foldSteps step a l1 with
        | .ok a' => foldSteps step a' l2
        | r => r := by
  intro l1
  induction l1 with
  | nil => intro l2 a; rfl
  | cons c cs ih =>
    intro l2 a
    simp only [List.cons_append, foldSteps]
    cases step a c with
    | ok a' => exact ih l2 a'
    | fail e => rfl
    | hang => rfl

theorem foldSteps_inv (step : Acc → ChunkData → StepRes) (P : Acc → Prop) :
    ∀ (cs : List ChunkData) (a a' : Acc),
      (∀ b c b', c ∈ cs → step b c = .ok b' → P b → P b') →
      foldSteps step a cs = .ok a' → P a → P a' := by
  intro cs
  induction cs with
  | nil =>
    intro a a' _ hfold hP
    cases hfold
    exact hP
  | cons c cs ih =>
    intro a a' hstep hfold hP
    simp only [foldSteps] at hfold
    cases hs : step a c with
    | ok b =>
      rw [hs] at hfold
      refine ih b a' ?_ hfold
        (hstep a c b (List.mem_cons_self c cs) hs hP)
      intro b1 c1 b1' hc1 hs1 hP1
      exact hstep b1 c1 b1' (List.mem_cons_of_mem c hc1) hs1 hP1
    | fail e => rw [hs] at hfold; cases hfold
    | hang => rw [hs] at hfold; cases hfold

/-! ### Decomposing a `load` outcome -/

theorem loadCore_ok (env : Env) (del : Finset (Nat × Nat))
    (old : List ChunkData) (corrupt : Bool) (newChunks : List ChunkData)
    (a : Acc) (h : loadCore env del old corrupt newChunks = .ok a) :
    ∃ a1, foldSteps (stepExisting env del) initAcc old = .ok a1 ∧
      corrupt = false ∧
      foldSteps (stepNew env del)
        (resetCounters a1 (Int.ofNat newChunks.length)) newChunks = .ok a := by
  unfold loadCore at h
  cases h1 : foldSteps (stepExisting env del) initAcc old with
  | ok a1 =>
    rw [h1] at h
    cases hc : corrupt with
    | true => rw [hc] at h; simp at h
    | false =>
      rw [hc] at h
      simp only [Bool.false_eq_true, if_false] at h
      exact ⟨a1, rfl, rfl, h⟩
  | fail e => rw [h1] at h; cases h
  | hang => rw [h1] at h; cases h

theorem load_success (env : Env) (sbl : SafeBrowsingList) (disk : Disk)
    (newChunks : List ChunkData) (r : LoadResult)
    (h : load env sbl disk newChunks = some r) (he : r.err = none) :
    ∃ a, loadCore env sbl.DeleteChunks (effOld env disk) (effCorrupt env disk)
        newChunks = .ok a ∧
      r.sbl = ⟨a.tmp.tmpLookup, a.tmp.tmpFullHashes, a.tmp.tmpFullHashRequested,
        ∅, some (buildChunkRanges a.addChunkIndexes,
                 buildChunkRanges a.subChunkIndexes)⟩ ∧
      r.disk = ⟨some ⟨a.newLog, false⟩, none⟩ := by
  unfold load at h
  by_cases hcf : env.createFails = true
  · rw [if_pos hcf] at h
    cases h
    simp at he
  · rw [if_neg hcf] at h
    cases hlc : loadCore env sbl.DeleteChunks (effOld env disk)
        (effCorrupt env disk) newChunks with
    | hang => rw [hlc] at h; cases h
    | fail e =>
      rw [hlc] at h
      dsimp only at h
      cases h
      simp at he
    | ok a =>
      rw [hlc] at h
      dsimp only at h
      by_cases h1 : fOpen env disk ∧ env.removeFails = true
      · rw [if_pos h1] at h
        cases h
        simp at he
      · rw [if_neg h1] at h
        by_cases h2 : env.renameFails = true
        · rw [if_pos h2] at h
          cases h
          simp at he
        · rw [if_neg h2] at h
          cases h
          exact ⟨a, rfl, rfl, rfl⟩

theorem encodeAndApply_fail (env : Env) (a : Acc) (c : ChunkData)
    (e : LoadErr) (h : encodeAndApply env a c = .fail e) : e = .encodeErr := by
  unfold encodeAndApply at h
  by_cases henc : encFails env a.encCalls
  · rw [if_pos henc] at h
    cases h
    rfl
  · rw [if_neg henc] at h
    cases hu : updateLookupMap c a.tmp <;> rw [hu] at h <;> cases h

theorem stepExisting_fail (env : Env) (del : Finset (Nat × Nat)) (a : Acc)
    (c : ChunkData) (e : LoadErr) (h : stepExisting env del a c = .fail e) :
    e = .encodeErr := by
  unfold stepExisting at h
  by_cases hdel : (c.ChunkType, c.ChunkNumber) ∈ del
  · rw [if_pos hdel] at h
    cases h
  · rw [if_neg hdel] at h
    cases hea : encodeAndApply env (classify a c) c with
    | ok a2 => rw [hea] at h; cases h
    | fail e2 =>
      rw [hea] at h
      cases h
      exact encodeAndApply_fail env _ c _ hea
    | hang => rw [hea] at h; cases h

theorem stepNew_fail (env : Env) (del : Finset (Nat × Nat)) (a : Acc)
    (c : ChunkData) (e : LoadErr) (h : stepNew env del a c = .fail e) :
    e = .encodeErr := by
  unfold stepNew at h
  by_cases hdel : (c.ChunkType, c.ChunkNumber) ∈ del
  · rw [if_pos hdel] at h
    cases h
  · rw [if_neg hdel] at h
    by_cases hrec : recognized c
    · rw [if_pos hrec] at h
      exact encodeAndApply_fail env _ c _ h
    · rw [if_neg hrec] at h
      cases h

theorem foldSteps_fail (step : Acc → ChunkData → StepRes)
    (hstep : ∀ b c e, step b c = .fail e → e = .encodeErr) :
    ∀ (cs : List ChunkData) (a : Acc) (e : LoadErr),
      foldSteps step a cs = .fail e → e = .encodeErr := by
  intro cs
  induction cs with
  | nil => intro a e h; cases h
  | cons c cs ih =>
    intro a e h
    simp only [foldSteps] at h
    cases hs : step a c with
    | ok b => rw [hs] at h; exact ih b e h
    | fail e2 =>
      rw [hs] at h
      cases h
      exact hstep a c _ hs
    | hang => rw [hs] at h; cases h

theorem loadCore_fail (env : Env) (del : Finset (Nat × Nat))
    (old : List ChunkData) (corrupt : Bool) (newChunks : List ChunkData)
    (e : LoadErr) (h : loadCore env del old corrupt newChunks = .fail e) :
    e = .decodeErr ∨ e = .encodeErr := by
  unfold loadCore at h
  cases h1 : foldSteps (stepExisting env del) initAcc old with
  | ok a1 =>
    rw [h1] at h
    cases hc : corrupt with
    | true =>
      rw [hc] at h
      simp only [if_true] at h
      cases h
      exact Or.inl rfl
    | false =>
      rw [hc] at h
      simp only [Bool.false_eq_true, if_false] at h
      exact Or.inr (foldSteps_fail _ (fun b c e2 => stepNew_fail env del b c e2) _ _ _ h)
  | fail e2 =>
    rw [h1] at h
    cases h
    exact Or.inr (foldSteps_fail _ (fun b c e2 => stepExisting_fail env del b c e2) _ _ _ h1)
  | hang => rw [h1] at h; cases h

theorem load_error (env : Env) (sbl : SafeBrowsingList) (disk : Disk)
    (newChunks : List ChunkData) (r : LoadResult) (e : LoadErr)
    (h : load env sbl disk newChunks = some r) (he : r.err = some e) :
    (e = .createErr ∧ r = ⟨some .createErr, sbl, disk⟩) ∨
    ((e = .decodeErr ∨ e = .encodeErr) ∧
      r = ⟨some e, sbl, ⟨disk.mainFile, none⟩⟩) ∨
    ((e = .removeErr ∨ e = .renameErr) ∧ r.sbl.DeleteChunks = sbl.DeleteChunks ∧
      r.sbl.ChunkRanges = sbl.ChunkRanges ∧ r.disk.tmpFile = none) := by
  unfold load at h
  by_cases hcf : env.createFails = true
  · rw [if_pos hcf] at h
    cases h
    cases he
    exact Or.inl ⟨rfl, rfl⟩
  · rw [if_neg hcf] at h
    cases hlc : loadCore env sbl.DeleteChunks (effOld env disk)
        (effCorrupt env disk) newChunks with
    | hang => rw [hlc] at h; cases h
    | fail e2 =>
      rw [hlc] at h
      dsimp only at h
      cases h
      cases he
      exact Or.inr (Or.inl ⟨loadCore_fail env _ _ _ _ _ hlc, rfl⟩)
    | ok a =>
      rw [hlc] at h
      dsimp only at h
      by_cases h1 : fOpen env disk ∧ env.removeFails = true
      · rw [if_pos h1] at h
        cases h
        cases he
        exact Or.inr (Or.inr ⟨Or.inl rfl, rfl, rfl, rfl⟩)
      · rw [if_neg h1] at h
        by_cases h2 : env.renameFails = true
        · rw [if_pos h2] at h
          cases h
          cases he
          exact Or.inr (Or.inr ⟨Or.inr rfl, rfl, rfl, rfl⟩)
        · rw [if_neg h2] at h
          cases h
          cases he

/-! ### C9 -/

/-- C9: `updateLookupMap` terminates for every chunk whose prefix type is one
of the two recognized widths; for any other prefix type the entry width stays
0, the loop index never advances and the call does not terminate (no fuel
suffices), and the existing-log pass of `load` still reaches that call on such
a record (a non-deleted record whose encode succeeded hangs there). -/
theorem C9_termination_dichotomy :
    (∀ (c : ChunkData) (t : TmpState),
      c.PrefixType = PREFIX_4B ∨ c.PrefixType = PREFIX_32B →
      (updateLookupMap c t).isSome = true) ∧
    (∀ (c : ChunkData) (t : TmpState) (fuel : Nat),
      c.PrefixType ≠ PREFIX_4B → c.PrefixType ≠ PREFIX_32B →
      ulmLoop t c (hashlenOf c) 0 fuel = none) ∧
    (∀ (env : Env) (del : Finset (Nat × Nat)) (a : Acc) (c : ChunkData),
      c.PrefixType ≠ PREFIX_4B → c.PrefixType ≠ PREFIX_32B →
      (c.ChunkType, c.ChunkNumber) ∉ del →
      encFails env a.encCalls = false →
      stepExisting env del a c = .hang) := by
  refine ⟨?_, ?_, ?_⟩
  · intro c t h
    have hpos : 0 < hashlenOf c := by
      rcases h with h | h
      · rw [hashlenOf_4 c h]; decide
      · rw [hashlenOf_32 c h]; decide
    exact updateLookupMap_isSome c t hpos
  · intro c t fuel h4 h32
    rw [hashlenOf_0 c h4 h32]
    exact ulmLoop_zero_none c fuel 0 t (by omega)
  · intro env del a c h4 h32 hdel henc
    unfold stepExisting
    rw [if_neg hdel]
    unfold encodeAndApply
    rw [classify_encCalls, henc]
    simp only [Bool.false_eq_true, if_false]
    rw [classify_tmp, updateLookupMap_none c a.tmp (hashlenOf_0 c h4 h32)]

theorem C9_witness :
    (updateLookupMap chunkAdd4 emptyTmp).isSome = true ∧
    ulmLoop emptyTmp chunkBadWidth (hashlenOf chunkBadWidth) 0 5 = none ∧
    stepExisting cleanEnv ∅ initAcc chunkBadWidth = .hang :=
  ⟨C9_termination_dichotomy.1 chunkAdd4 emptyTmp (Or.inl rfl),
   C9_termination_dichotomy.2.1 chunkBadWidth emptyTmp 5 (by decide) (by decide),
   C9_termination_dichotomy.2.2 cleanEnv ∅ initAcc chunkBadWidth (by decide)
     (by decide) (by decide) rfl⟩

/-! ### C10 -/

/-- C10: for a chunk with a recognized prefix type, `updateLookupMap` extracts
and applies exactly `len(Hashes) / entryWidth` fixed-width entries; the
extracted entries all have the entry width and their concatenation is the
initial `(len / w) * w`-byte segment of the blob, so the loop never reads past
the end and a trailing partial entry is silently ignored. -/
theorem C10_entry_extraction (c : ChunkData) (t : TmpState) (w : Nat)
    (hw : hashlenOf c = w) (hrec : w = PREFIX_4B_SZ ∨ w = PREFIX_32B_SZ) :
    updateLookupMap c t =
      some ((entriesW w c.Hashes).foldl (fun s e => applyHash s c w e) t) ∧
    (entriesW w c.Hashes).length = c.Hashes.length / w ∧
    (∀ e ∈ entriesW w c.Hashes, e.length = w) ∧
    (entriesW w c.Hashes).flatten =
      c.Hashes.take ((c.Hashes.length / w) * w) := by
  subst hw
  have hpos : 0 < hashlenOf c := by
    rcases hrec with h | h <;> rw [h] <;> decide
  exact ⟨updateLookupMap_eq_foldl c t hpos,
    entriesW_length _ hpos _ c.Hashes rfl,
    entriesW_width _ _ c.Hashes rfl,
    entriesW_flatten _ hpos _ c.Hashes rfl⟩

theorem C10_witness :
    updateLookupMap chunkTen emptyTmp =
      some ((entriesW PREFIX_4B_SZ chunkTen.Hashes).foldl
        (fun s e => applyHash s chunkTen PREFIX_4B_SZ e) emptyTmp) ∧
    (entriesW PREFIX_4B_SZ chunkTen.Hashes).length =
      chunkTen.Hashes.length / PREFIX_4B_SZ ∧
    (entriesW PREFIX_4B_SZ chunkTen.Hashes).flatten =
      chunkTen.Hashes.take
        ((chunkTen.Hashes.length / PREFIX_4B_SZ) * PREFIX_4B_SZ) :=
  ⟨(C10_entry_extraction chunkTen emptyTmp PREFIX_4B_SZ rfl (Or.inl rfl)).1,
   (C10_entry_extraction chunkTen emptyTmp PREFIX_4B_SZ rfl (Or.inl rfl)).2.1,
   (C10_entry_extraction chunkTen emptyTmp PREFIX_4B_SZ rfl (Or.inl rfl)).2.2.2⟩

/-! ### C3 -/

theorem delInv_classify_retained {del : Finset (Nat × Nat)} (c c' : ChunkData)
    (a : Acc) (hdel : (c.ChunkType, c.ChunkNumber) ∈ del)
    (hdel' : (c'.ChunkType, c'.ChunkNumber) ∉ del) (hInv : DelInv c a) :
    DelInv c { classify a c' with newLog := a.newLog ++ [c'] } := by
  obtain ⟨hA, hS, hL⟩ := hInv
  have hcc : c ≠ c' := by
    rintro rfl
    exact hdel' hdel
  refine ⟨?_, ?_, ?_⟩
  · intro hT
    show c.ChunkNumber ∉ (classify a c').addChunkIndexes
    rw [classify_addIdx]
    split_ifs with h
    · rw [Finset.mem_insert]
      rintro (hnum | hmem)
      · exact hdel' (by rw [h.1, ← hnum, ← hT]; exact hdel)
      · exact hA hT hmem
    · exact hA hT
  · intro hT
    show c.ChunkNumber ∉ (classify a c').subChunkIndexes
    rw [classify_subIdx]
    split_ifs with h
    · rw [Finset.mem_insert]
      rintro (hnum | hmem)
      · exact hdel' (by rw [h.1, ← hnum, ← hT]; exact hdel)
      · exact hS hT hmem
    · exact hS hT
  · show c ∉ a.newLog ++ [c']
    rw [List.mem_append]
    rintro (hmem | hmem)
    · exact hL hmem
    · exact hcc (List.mem_singleton.mp hmem)

theorem delInv_stepExisting (env : Env) (del : Finset (Nat × Nat))
    (c : ChunkData) (hdel : (c.ChunkType, c.ChunkNumber) ∈ del)
    (a a' : Acc) (hs : stepExisting env del a c' = .ok a')
    (hInv : DelInv c a) : DelInv c a' := by
  rcases stepExisting_ok env del a c' a' hs with ⟨_, rfl⟩ | ⟨hd, t, ht, rfl⟩
  · exact hInv
  · exact delInv_classify_retained c c' a hdel hd hInv

theorem delInv_stepNew (env : Env) (del : Finset (Nat × Nat))
    (c : ChunkData) (hdel : (c.ChunkType, c.ChunkNumber) ∈ del)
    (a a' : Acc) (hs : stepNew env del a c' = .ok a')
    (hInv : DelInv c a) : DelInv c a' := by
  rcases stepNew_ok env del a c' a' hs with ⟨_, rfl⟩ | ⟨hd, _, t, ht, rfl⟩
  · exact hInv
  · exact delInv_classify_retained c c' a hdel hd hInv

/-- C3: a chunk record whose (chunkType, chunkNumber) is in `DeleteChunks` is
skipped identically by both merge passes (only a counter moves: nothing is
encoded, no index map is touched, no entry is applied), and after any
successful merge its chunk number is absent from the kept index map of its
type and the record itself is absent from the new persisted log. -/
theorem C3_deletion_exclusivity (del : Finset (Nat × Nat)) (c : ChunkData)
    (hdel : (c.ChunkType, c.ChunkNumber) ∈ del) :
    (∀ (env : Env) (a : Acc),
      stepExisting env del a c =
        .ok { a with deletedChunkCount := a.deletedChunkCount + 1 } ∧
      stepNew env del a c =
        .ok { a with addedChunkCount := a.addedChunkCount - 1 }) ∧
    (∀ (env : Env) (old : List ChunkData) (corrupt : Bool)
        (newChunks : List ChunkData) (a : Acc),
      loadCore env del old corrupt newChunks = .ok a →
      (c.ChunkType = CHUNK_TYPE_ADD → c.ChunkNumber ∉ a.addChunkIndexes) ∧
      (c.ChunkType = CHUNK_TYPE_SUB → c.ChunkNumber ∉ a.subChunkIndexes) ∧
      c ∉ a.newLog) := by
  constructor
  · intro env a
    exact ⟨stepExisting_del env del a c hdel, stepNew_del env del a c hdel⟩
  · intro env old corrupt newChunks a hok
    obtain ⟨a1, h1, hc, h2⟩ := loadCore_ok env del old corrupt newChunks a hok
    have hInit : DelInv c initAcc := by
      refine ⟨?_, ?_, ?_⟩ <;> simp [initAcc, DelInv]
    have hBar : DelInv c a1 :=
      foldSteps_inv (stepExisting env del) (DelInv c) old initAcc a1
        (fun b c' b' _ hs hP => delInv_stepExisting env del c hdel b b' hs hP)
        h1 hInit
    have hReset : DelInv c (resetCounters a1 (Int.ofNat newChunks.length)) :=
      hBar
    exact foldSteps_inv (stepNew env del) (DelInv c) newChunks _ a
      (fun b c' b' _ hs hP => delInv_stepNew env del c hdel b b' hs hP)
      h2 hReset

theorem C3_witness :
    stepExisting cleanEnv delAdd1 initAcc chunkAdd4 =
      .ok { initAcc with deletedChunkCount := initAcc.deletedChunkCount + 1 } ∧
    stepNew cleanEnv delAdd1 initAcc chunkAdd4 =
      .ok { initAcc with addedChunkCount := initAcc.addedChunkCount - 1 } ∧
    chunkAdd4.ChunkNumber ∉ accC3.addChunkIndexes ∧
    chunkAdd4 ∉ accC3.newLog :=
  ⟨((C3_deletion_exclusivity delAdd1 chunkAdd4 (by decide)).1 cleanEnv initAcc).1,
   ((C3_deletion_exclusivity delAdd1 chunkAdd4 (by decide)).1 cleanEnv initAcc).2,
   ((C3_deletion_exclusivity delAdd1 chunkAdd4 (by decide)).2 cleanEnv
     [chunkAdd4] false [] accC3 rfl).1 rfl,
   ((C3_deletion_exclusivity delAdd1 chunkAdd4 (by decide)).2 cleanEnv
     [chunkAdd4] false [] accC3 rfl).2.2⟩

/-! ### C2 -/

/-- C2 (amended): an unrecognized, non-deleted record is treated differently
by the two passes of `load`.  The delta pass skips it entirely (no copy, no
index entry, no container effect, only a counter decrement); the existing-log
pass leaves the kept index maps untouched but still encodes the record into
the new log and still passes it to `updateLookupMap` (whose application is a
no-op on the containers for an unrecognized chunk type, and which fails to
terminate for an unrecognized entry width). -/
theorem C2_unrecognized_asymmetry (env : Env) (del : Finset (Nat × Nat))
    (a : Acc) (c : ChunkData) (t : TmpState) (hrec : ¬recognized c)
    (hdel : (c.ChunkType, c.ChunkNumber) ∉ del)
    (henc : encFails env a.encCalls = false)
    (ht : updateLookupMap c a.tmp = some t) :
    stepNew env del a c =
      .ok { a with addedChunkCount := a.addedChunkCount - 1 } ∧
    stepExisting env del a c =
      .ok { a with newLog := a.newLog ++ [c], encCalls := a.encCalls + 1,
                   tmp := t, addedChunkCount := a.addedChunkCount + 1 } := by
  constructor
  · exact stepNew_unrecognized env del a c hdel hrec
  · unfold stepExisting
    rw [if_neg hdel, classify_unrecognized a c hrec]
    unfold encodeAndApply
    rw [henc]
    simp only [Bool.false_eq_true, if_false]
    rw [ht]

/-- C2 counterexample: the unrecognized record `chunkUnrec`, coming from the
existing persisted log, is NOT skipped — the merge succeeds and the record is
copied into the new persisted log, contradicting the claimed uniform
treatment. -/
theorem C2_counterexample :
    load cleanEnv sbl0 ⟨some ⟨[chunkUnrec], false⟩, none⟩ [] = some resC2 ∧
    resC2.err = none ∧
    resC2.disk.mainFile = some ⟨[chunkUnrec], false⟩ :=
  ⟨rfl, rfl, rfl⟩

theorem C2_witness :
    stepNew cleanEnv ∅ initAcc chunkUnrec =
      .ok { initAcc with addedChunkCount := initAcc.addedChunkCount - 1 } ∧
    stepExisting cleanEnv ∅ initAcc chunkUnrec =
      .ok { initAcc with newLog := initAcc.newLog ++ [chunkUnrec],
                         encCalls := initAcc.encCalls + 1, tmp := emptyTmp,
                         addedChunkCount := initAcc.addedChunkCount + 1 } :=
  C2_unrecognized_asymmetry cleanEnv ∅ initAcc chunkUnrec emptyTmp
    (by decide) (by decide) rfl rfl

/-! ### C1 -/

/-- C1 (amended): if the merge fails on a decode error on the existing log, an
encode error on the temporary log, or a failure to create the temporary log,
then on return the persisted log on disk is unchanged and all three live
containers are unchanged.  (The remove/rename failures named by the original
claim are excluded: the source replaces the live containers before touching
the log files, so on those failures the containers are already swapped — see
the counterexample.) -/
theorem C1_atomic_before_replace (env : Env) (sbl : SafeBrowsingList)
    (disk : Disk) (newChunks : List ChunkData) (r : LoadResult) (e : LoadErr)
    (h : load env sbl disk newChunks = some r) (he : r.err = some e)
    (hkind : e = .decodeErr ∨ e = .encodeErr ∨ e = .createErr) :
    r.disk.mainFile = disk.mainFile ∧ r.sbl.Lookup = sbl.Lookup ∧
    r.sbl.FullHashes = sbl.FullHashes ∧
    r.sbl.FullHashRequested = sbl.FullHashRequested := by
  rcases load_error env sbl disk newChunks r e h he with
    ⟨he1, rfl⟩ | ⟨he1, rfl⟩ | ⟨he1, _, _, _⟩
  · exact ⟨rfl, rfl, rfl, rfl⟩
  · exact ⟨rfl, rfl, rfl, rfl⟩
  · exfalso
    rcases hkind with rfl | rfl | rfl <;> rcases he1 with h2 | h2 <;> cases h2

/-- C1 counterexample: the merge fails at the remove step — before the durable
replace — yet the live `Lookup` container has already been replaced: it now
holds the prefix `abcd` rebuilt from the log, while it was empty before the
call.  So the three containers are not left unchanged on a remove/rename
failure, contrary to the claim. -/
theorem C1_counterexample :
    load envRemoveFail sbl0 diskA [] = some resC1 ∧
    resC1.err = some .removeErr ∧ sbl0.Lookup = ∅ ∧
    [97, 98, 99, 100] ∈ resC1.sbl.Lookup :=
  ⟨rfl, rfl, rfl, by decide⟩

theorem C1_witness :
    resC1w.disk.mainFile = diskA.mainFile ∧ resC1w.sbl.Lookup = sbl0.Lookup ∧
    resC1w.sbl.FullHashes = sbl0.FullHashes ∧
    resC1w.sbl.FullHashRequested = sbl0.FullHashRequested :=
  C1_atomic_before_replace envCreateFail sbl0 diskA [] resC1w .createErr rfl rfl
    (Or.inr (Or.inr rfl))

/-- With no encode failure injected, the delta pass cannot fail or hang: a
deleted or unrecognized record is skipped, and a recognized record has a
positive entry width, so its `updateLookupMap` call terminates. -/
theorem foldNew_clean (env : Env) (del : Finset (Nat × Nat))
    (henc : env.encodeFailsAt = none) :
    ∀ (cs : List ChunkData) (a : Acc),
      ∃ a', foldSteps (stepNew env del) a cs = .ok a' := by
  intro cs
  induction cs with
  | nil => intro a; exact ⟨a, rfl⟩
  | cons c cs ih =>
    intro a
    have hstep : ∃ b, stepNew env del a c = .ok b := by
      unfold stepNew
      by_cases hdel : (c.ChunkType, c.ChunkNumber) ∈ del
      · rw [if_pos hdel]; exact ⟨_, rfl⟩
      · rw [if_neg hdel]
        by_cases hrec : recognized c
        · rw [if_pos hrec]
          unfold encodeAndApply
          have hef : encFails env (classify a c).encCalls = false := by
            simp [encFails, henc]
          rw [hef]
          simp only [Bool.false_eq_true, if_false]
          have hpos : 0 < hashlenOf c := by
            rcases hrec.2 with hp | hp
            · rw [hashlenOf_4 c hp]; decide
            · rw [hashlenOf_32 c hp]; decide
          have hsome := updateLookupMap_isSome c (classify a c).tmp hpos
          cases hu : updateLookupMap c (classify a c).tmp with
          | none => rw [hu] at hsome; cases hsome
          | some t => exact ⟨_, rfl⟩
        · rw [if_neg hrec]; exact ⟨_, rfl⟩
    obtain ⟨b, hb⟩ := hstep
    obtain ⟨a', ha'⟩ := ih b
    refine ⟨a', ?_⟩
    simp only [foldSteps]
    rw [hb]
    exact ha'

/-! ### C8 -/

/-- C8 (amended): a failure to create the temporary log aborts the whole call
with the error surfaced and no state change at all; but a failure to open an
existing persisted log is NOT surfaced — it is only warned about and treated
as an empty log, after which the merge proceeds and commits normally. -/
theorem C8_storage_failures (sbl : SafeBrowsingList) (disk : Disk)
    (newChunks : List ChunkData) :
    (∀ env : Env, env.createFails = true →
      load env sbl disk newChunks = some ⟨some .createErr, sbl, disk⟩) ∧
    (∀ env : Env, env.openFails = true → env.createFails = false →
      env.encodeFailsAt = none → env.renameFails = false →
      ∃ r, load env sbl disk newChunks = some r ∧ r.err = none) := by
  constructor
  · intro env hcf
    unfold load
    rw [if_pos hcf]
  · intro env hof hcf henc hrf
    obtain ⟨a', ha'⟩ := foldNew_clean env sbl.DeleteChunks henc newChunks
      (resetCounters initAcc (Int.ofNat newChunks.length))
    have hold : effOld env disk = [] := by
      unfold effOld
      rw [if_neg (by rw [hof]; simp)]
    have hcor : effCorrupt env disk = false := by
      unfold effCorrupt
      rw [if_neg (by rw [hof]; simp)]
    have hcore : loadCore env sbl.DeleteChunks (effOld env disk)
        (effCorrupt env disk) newChunks = .ok a' := by
      unfold loadCore
      rw [hold, hcor]
      simpa using ha'
    refine ⟨⟨none,
      { Lookup := a'.tmp.tmpLookup, FullHashes := a'.tmp.tmpFullHashes,
        FullHashRequested := a'.tmp.tmpFullHashRequested, DeleteChunks := ∅,
        ChunkRanges := some (buildChunkRanges a'.addChunkIndexes,
                             buildChunkRanges a'.subChunkIndexes) },
      ⟨some ⟨a'.newLog, false⟩, none⟩⟩, ?_, rfl⟩
    unfold load
    rw [if_neg (by rw [hcf]; simp), hcore]
    dsimp only
    rw [if_neg (by rintro ⟨⟨-, hx⟩, -⟩; rw [hof] at hx; cases hx),
        if_neg (by rw [hrf]; simp)]

/-- C8 counterexample: an open failure on an existing, non-empty persisted log
does not abort the call — the merge succeeds (`err = none`) treating the log
as empty, and the persisted log on disk is replaced by an empty one.  So a
storage failure other than absence is silently treated as an empty log,
contrary to the claim. -/
theorem C8_counterexample :
    diskA.mainFile = some ⟨[chunkAdd4], false⟩ ∧
    load envOpenFail sbl0 diskA [] = some resC8 ∧
    resC8.err = none ∧ resC8.disk.mainFile = some ⟨[], false⟩ :=
  ⟨rfl, rfl, rfl, rfl⟩

theorem C8_witness :
    load envCreateFail sbl0 diskA [] = some ⟨some .createErr, sbl0, diskA⟩ ∧
    ∃ r, load envOpenFail sbl0 diskA [] = some r ∧ r.err = none :=
  ⟨(C8_storage_failures sbl0 diskA []).1 envCreateFail rfl,
   (C8_storage_failures sbl0 diskA []).2 envOpenFail rfl rfl rfl rfl⟩

/-! ### C5 -/

theorem logNums_nil (T : Nat) : logNums T [] = ∅ := rfl

theorem logNums_append (T : Nat) (log : List ChunkData) (c : ChunkData) :
    logNums T (log ++ [c]) =
      if c.ChunkType = T then insert c.ChunkNumber (logNums T log)
      else logNums T log := by
  unfold logNums
  rw [List.filter_append]
  by_cases h : c.ChunkType = T
  · rw [if_pos h]
    ext x
    simp [h, or_comm]
  · rw [if_neg h]
    simp [h]

theorem updateLookupMap_some_pos (c : ChunkData) (t t' : TmpState)
    (h : updateLookupMap c t = some t') : 0 < hashlenOf c := by
  by_contra h0
  rw [updateLookupMap_none c t (by omega)] at h
  cases h

theorem hashlenOf_pos_rec (c : ChunkData) (h : 0 < hashlenOf c) :
    c.PrefixType = PREFIX_4B ∨ c.PrefixType = PREFIX_32B := by
  by_contra hn
  push_neg at hn
  rw [hashlenOf_0 c hn.1 hn.2] at h
  omega

theorem idxInv_retained (a : Acc) (c : ChunkData) (t : TmpState)
    (ht : updateLookupMap c a.tmp = some t) (hInv : IdxInv a) :
    IdxInv { classify a c with newLog := a.newLog ++ [c] } := by
  have hpre : c.PrefixType = PREFIX_4B ∨ c.PrefixType = PREFIX_32B :=
    hashlenOf_pos_rec c (updateLookupMap_some_pos c a.tmp t ht)
  obtain ⟨hA, hS⟩ := hInv
  constructor
  · show (classify a c).addChunkIndexes = logNums CHUNK_TYPE_ADD (a.newLog ++ [c])
    rw [classify_addIdx, logNums_append]
    by_cases hT : c.ChunkType = CHUNK_TYPE_ADD
    · rw [if_pos ⟨hT, hpre⟩, if_pos hT, hA]
    · rw [if_neg (by tauto), if_neg hT, hA]
  · show (classify a c).subChunkIndexes = logNums CHUNK_TYPE_SUB (a.newLog ++ [c])
    rw [classify_subIdx, logNums_append]
    by_cases hT : c.ChunkType = CHUNK_TYPE_SUB
    · rw [if_pos ⟨hT, hpre⟩, if_pos hT, hS]
    · rw [if_neg (by tauto), if_neg hT, hS]

theorem idxInv_stepExisting (env : Env) (del : Finset (Nat × Nat))
    (c : ChunkData) (a a' : Acc) (hs : stepExisting env del a c = .ok a')
    (hInv : IdxInv a) : IdxInv a' := by
  rcases stepExisting_ok env del a c a' hs with ⟨_, rfl⟩ | ⟨_, t, ht, rfl⟩
  · exact hInv
  · exact idxInv_retained a c t ht hInv

theorem idxInv_stepNew (env : Env) (del : Finset (Nat × Nat))
    (c : ChunkData) (a a' : Acc) (hs : stepNew env del a c = .ok a')
    (hInv : IdxInv a) : IdxInv a' := by
  rcases stepNew_ok env del a c a' hs with ⟨_, rfl⟩ | ⟨_, _, t, ht, rfl⟩
  · exact hInv
  · exact idxInv_retained a c t ht hInv

theorem loadCore_idxInv (env : Env) (del : Finset (Nat × Nat))
    (old : List ChunkData) (corrupt : Bool) (newChunks : List ChunkData)
    (a : Acc) (hok : loadCore env del old corrupt newChunks = .ok a) :
    IdxInv a := by
  obtain ⟨a1, h1, hc, h2⟩ := loadCore_ok env del old corrupt newChunks a hok
  have hInit : IdxInv initAcc := ⟨rfl, rfl⟩
  have hMid : IdxInv a1 :=
    foldSteps_inv (stepExisting env del) IdxInv old initAcc a1
      (fun b c b' _ hs hP => idxInv_stepExisting env del c b b' hs hP) h1 hInit
  exact foldSteps_inv (stepNew env del) IdxInv newChunks _ a
    (fun b c b' _ hs hP => idxInv_stepNew env del c b b' hs hP) h2 hMid

/-- C5: after every successful merge, the chunk-range summary of each chunk
type is the canonical range encoding of exactly the set of chunk numbers of
that type among the records actually retained in the new persisted log. -/
theorem C5_chunkranges_exact (env : Env) (sbl : SafeBrowsingList) (disk : Disk)
    (newChunks : List ChunkData) (r : LoadResult)
    (h : load env sbl disk newChunks = some r) (he : r.err = none) :
    ∃ log, r.disk.mainFile = some ⟨log, false⟩ ∧
      r.sbl.ChunkRanges =
        some (buildChunkRanges (logNums CHUNK_TYPE_ADD log),
              buildChunkRanges (logNums CHUNK_TYPE_SUB log)) := by
  obtain ⟨a, hcore, hsbl, hdisk⟩ := load_success env sbl disk newChunks r h he
  obtain ⟨hA, hS⟩ := loadCore_idxInv env sbl.DeleteChunks _ _ newChunks a hcore
  refine ⟨a.newLog, by rw [hdisk], ?_⟩
  rw [hsbl]
  show some (buildChunkRanges a.addChunkIndexes,
             buildChunkRanges a.subChunkIndexes) = _
  rw [hA, hS]

theorem C5_witness :
    ∃ log, resA.disk.mainFile = some ⟨log, false⟩ ∧
      resA.sbl.ChunkRanges =
        some (buildChunkRanges (logNums CHUNK_TYPE_ADD log),
              buildChunkRanges (logNums CHUNK_TYPE_SUB log)) :=
  C5_chunkranges_exact cleanEnv sbl0 disk0 [chunkAdd4] resA rfl rfl

/-! ### C4 -/

theorem stepExisting_fh_pres (env : Env) (del : Finset (Nat × Nat)) (h : Key)
    (a a' : Acc) (c : ChunkData) (hs : stepExisting env del a c = .ok a')
    (hno : ¬ reAddsFull del h c) (hh : h ∉ a.tmp.tmpFullHashes) :
    h ∉ a'.tmp.tmpFullHashes := by
  rcases stepExisting_ok env del a c a' hs with ⟨_, rfl⟩ | ⟨hd, t, ht, rfl⟩
  · exact hh
  · show h ∉ t.tmpFullHashes
    refine updateLookupMap_fh_pres c a.tmp t h ht hh ?_
    rintro ⟨hcadd, hp32, hmem⟩
    exact hno ⟨hd, hcadd, hp32, hmem⟩

theorem stepNew_fh_pres (env : Env) (del : Finset (Nat × Nat)) (h : Key)
    (a a' : Acc) (c : ChunkData) (hs : stepNew env del a c = .ok a')
    (hno : ¬ reAddsFull del h c) (hh : h ∉ a.tmp.tmpFullHashes) :
    h ∉ a'.tmp.tmpFullHashes := by
  rcases stepNew_ok env del a c a' hs with ⟨_, rfl⟩ | ⟨hd, _, t, ht, rfl⟩
  · exact hh
  · show h ∉ t.tmpFullHashes
    refine updateLookupMap_fh_pres c a.tmp t h ht hh ?_
    rintro ⟨hcadd, hp32, hmem⟩
    exact hno ⟨hd, hcadd, hp32, hmem⟩

theorem stepExisting_fhr_mono (env : Env) (del : Finset (Nat × Nat))
    (a a' : Acc) (c : ChunkData) (hs : stepExisting env del a c = .ok a') :
    a.tmp.tmpFullHashRequested ⊆ a'.tmp.tmpFullHashRequested := by
  rcases stepExisting_ok env del a c a' hs with ⟨_, rfl⟩ | ⟨_, t, ht, rfl⟩
  · exact Finset.Subset.refl _
  · exact updateLookupMap_fhr_mono c a.tmp t ht

theorem stepNew_fhr_mono (env : Env) (del : Finset (Nat × Nat))
    (a a' : Acc) (c : ChunkData) (hs : stepNew env del a c = .ok a') :
    a.tmp.tmpFullHashRequested ⊆ a'.tmp.tmpFullHashRequested := by
  rcases stepNew_ok env del a c a' hs with ⟨_, rfl⟩ | ⟨_, _, t, ht, rfl⟩
  · exact Finset.Subset.refl _
  · exact updateLookupMap_fhr_mono c a.tmp t ht

theorem stepExisting_sub32 (env : Env) (del : Finset (Nat × Nat))
    (a a' : Acc) (c : ChunkData) (h : Key)
    (hs : stepExisting env del a c = .ok a')
    (hdel : (c.ChunkType, c.ChunkNumber) ∉ del)
    (hc : c.ChunkType = CHUNK_TYPE_SUB) (hp : c.PrefixType = PREFIX_32B)
    (hmem : h ∈ entriesW PREFIX_32B_SZ c.Hashes) :
    h ∉ a'.tmp.tmpFullHashes ∧ h ∈ a'.tmp.tmpFullHashRequested := by
  rcases stepExisting_ok env del a c a' hs with ⟨hd, rfl⟩ | ⟨_, t, ht, rfl⟩
  · exact absurd hd hdel
  · exact updateLookupMap_sub32 c a.tmp t h ht hc hp hmem

theorem stepNew_sub32 (env : Env) (del : Finset (Nat × Nat))
    (a a' : Acc) (c : ChunkData) (h : Key)
    (hs : stepNew env del a c = .ok a')
    (hdel : (c.ChunkType, c.ChunkNumber) ∉ del)
    (hc : c.ChunkType = CHUNK_TYPE_SUB) (hp : c.PrefixType = PREFIX_32B)
    (hmem : h ∈ entriesW PREFIX_32B_SZ c.Hashes) :
    h ∉ a'.tmp.tmpFullHashes ∧ h ∈ a'.tmp.tmpFullHashRequested := by
  rcases stepNew_ok env del a c a' hs with ⟨hd, rfl⟩ | ⟨_, _, t, ht, rfl⟩
  · rcases hd with hd | hd
    · exact absurd hd hdel
    · exact absurd ⟨Or.inr hc, Or.inr hp⟩ hd
  · exact updateLookupMap_sub32 c a.tmp t h ht hc hp hmem

theorem foldSteps_ok_append (step : Acc → ChunkData → StepRes)
    (l1 l2 : List ChunkData) (a a' : Acc)
    (h : foldSteps step a (l1 ++ l2) = .ok a') :
    ∃ b, foldSteps step a l1 = .ok b ∧ foldSteps step b l2 = .ok a' := by
  rw [foldSteps_append] at h
  cases hf : foldSteps step a l1 with
  | ok b => rw [hf] at h; exact ⟨b, rfl, h⟩
  | fail e => rw [hf] at h; cases h
  | hang => rw [hf] at h; cases h

theorem foldSteps_ok_cons (step : Acc → ChunkData → StepRes) (a : Acc)
    (c : ChunkData) (cs : List ChunkData) (a' : Acc)
    (h : foldSteps step a (c :: cs) = .ok a') :
    ∃ b, step a c = .ok b ∧ foldSteps step b cs = .ok a' := by
  simp only [foldSteps] at h
  cases hs : step a c with
  | ok b => rw [hs] at h; exact ⟨b, rfl, h⟩
  | fail e => rw [hs] at h; cases h
  | hang => rw [hs] at h; cases h

theorem foldExisting_fh_pres (env : Env) (del : Finset (Nat × Nat)) (h : Key)
    (cs : List ChunkData) (a a' : Acc)
    (hfold : foldSteps (stepExisting env del) a cs = .ok a')
    (hno : ∀ c' ∈ cs, ¬ reAddsFull del h c')
    (hh : h ∉ a.tmp.tmpFullHashes) : h ∉ a'.tmp.tmpFullHashes :=
  foldSteps_inv _ (fun b => h ∉ b.tmp.tmpFullHashes) cs a a'
    (fun b c' b' hc' hs hP =>
      stepExisting_fh_pres env del h b b' c' hs (hno c' hc') hP) hfold hh

theorem foldNew_fh_pres (env : Env) (del : Finset (Nat × Nat)) (h : Key)
    (cs : List ChunkData) (a a' : Acc)
    (hfold : foldSteps (stepNew env del) a cs = .ok a')
    (hno : ∀ c' ∈ cs, ¬ reAddsFull del h c')
    (hh : h ∉ a.tmp.tmpFullHashes) : h ∉ a'.tmp.tmpFullHashes :=
  foldSteps_inv _ (fun b => h ∉ b.tmp.tmpFullHashes) cs a a'
    (fun b c' b' hc' hs hP =>
      stepNew_fh_pres env del h b b' c' hs (hno c' hc') hP) hfold hh

theorem foldExisting_fhr_mono (env : Env) (del : Finset (Nat × Nat))
    (cs : List ChunkData) (a a' : Acc)
    (hfold : foldSteps (stepExisting env del) a cs = .ok a') :
    a.tmp.tmpFullHashRequested ⊆ a'.tmp.tmpFullHashRequested :=
  foldSteps_inv _
    (fun b => a.tmp.tmpFullHashRequested ⊆ b.tmp.tmpFullHashRequested) cs a a'
    (fun b c' b' _ hs hP => hP.trans (stepExisting_fhr_mono env del b b' c' hs))
    hfold (Finset.Subset.refl _)

theorem foldNew_fhr_mono (env : Env) (del : Finset (Nat × Nat))
    (cs : List ChunkData) (a a' : Acc)
    (hfold : foldSteps (stepNew env del) a cs = .ok a') :
    a.tmp.tmpFullHashRequested ⊆ a'.tmp.tmpFullHashRequested :=
  foldSteps_inv _
    (fun b => a.tmp.tmpFullHashRequested ⊆ b.tmp.tmpFullHashRequested) cs a a'
    (fun b c' b' _ hs hP => hP.trans (stepNew_fhr_mono env del b b' c' hs))
    hfold (Finset.Subset.refl _)

/-- C4 (amended): for a 32-byte value `h` appearing as an entry of a SUB
full-hash chunk processed (not deleted) during a successful merge — located
anywhere in the stream by `hsplit`, with `later` naming the records processed
after it — after the merge `h ∈ FullHashRequested` unconditionally (nothing
removes from that container during a merge, so this holds even when a later
ADD re-inserts `h` into `FullHashes`); and `h ∉ FullHashes` provided no
record in `later` is a non-deleted ADD full-hash record containing `h` — the
original unconditional `h ∉ FullHashes` fails because a later ADD re-inserts
it (see the counterexample). -/
theorem C4_subfull_effect (env : Env) (sbl : SafeBrowsingList) (disk : Disk)
    (newChunks : List ChunkData) (r : LoadResult) (c : ChunkData) (h : Key)
    (tl later : List ChunkData)
    (hload : load env sbl disk newChunks = some r) (he : r.err = none)
    (hc : c.ChunkType = CHUNK_TYPE_SUB) (hp : c.PrefixType = PREFIX_32B)
    (hdel : (c.ChunkType, c.ChunkNumber) ∉ sbl.DeleteChunks)
    (hmem : h ∈ entriesW PREFIX_32B_SZ c.Hashes)
    (hsplit :
      (∃ o1, effOld env disk = o1 ++ c :: tl ∧ later = tl ++ newChunks) ∨
      (∃ n1, newChunks = n1 ++ c :: tl ∧ later = tl)) :
    h ∈ r.sbl.FullHashRequested ∧
    ((∀ c' ∈ later, ¬ reAddsFull sbl.DeleteChunks h c') →
      h ∉ r.sbl.FullHashes) := by
  obtain ⟨a, hcore, hsbl, hdisk⟩ := load_success env sbl disk newChunks r hload he
  obtain ⟨a1, hfold1, hcorr, hfold2⟩ :=
    loadCore_ok env sbl.DeleteChunks _ _ newChunks a hcore
  have hmain : h ∈ a.tmp.tmpFullHashRequested ∧
      ((∀ c' ∈ later, ¬ reAddsFull sbl.DeleteChunks h c') →
        h ∉ a.tmp.tmpFullHashes) := by
    rcases hsplit with ⟨o1, hOld, hlater⟩ | ⟨n1, hNew, hlater⟩
    · subst hlater
      rw [hOld] at hfold1
      obtain ⟨b1, hb1, hrest⟩ :=
        foldSteps_ok_append _ o1 (c :: tl) initAcc a1 hfold1
      obtain ⟨b2, hstep, hb2⟩ := foldSteps_ok_cons _ b1 c tl a1 hrest
      have hkill := stepExisting_sub32 env sbl.DeleteChunks b1 b2 c h hstep
        hdel hc hp hmem
      constructor
      · exact foldNew_fhr_mono env sbl.DeleteChunks newChunks _ a hfold2
          (foldExisting_fhr_mono env sbl.DeleteChunks tl b2 a1 hb2 hkill.2)
      · intro hno
        have hnoTl : ∀ c' ∈ tl, ¬ reAddsFull sbl.DeleteChunks h c' :=
          fun c' hm => hno c' (List.mem_append_left _ hm)
        have hnoNew : ∀ c' ∈ newChunks, ¬ reAddsFull sbl.DeleteChunks h c' :=
          fun c' hm => hno c' (List.mem_append_right _ hm)
        exact foldNew_fh_pres env sbl.DeleteChunks h newChunks _ a hfold2
          hnoNew
          (foldExisting_fh_pres env sbl.DeleteChunks h tl b2 a1 hb2 hnoTl
            hkill.1)
    · rw [hNew] at hfold2
      obtain ⟨b1, hb1, hrest⟩ := foldSteps_ok_append _ n1 (c :: tl) _ a hfold2
      obtain ⟨b2, hstep, hb2⟩ := foldSteps_ok_cons _ b1 c tl a hrest
      have hkill := stepNew_sub32 env sbl.DeleteChunks b1 b2 c h hstep
        hdel hc hp hmem
      constructor
      · exact foldNew_fhr_mono env sbl.DeleteChunks tl b2 a hb2 hkill.2
      · intro hno
        rw [hlater] at hno
        exact foldNew_fh_pres env sbl.DeleteChunks h tl b2 a hb2 hno hkill.1
  rw [hsbl]
  exact hmain

/-- The SUB-full fixture's hash blob splits into exactly one 32-byte entry. -/
theorem entriesW_subFull :
    entriesW PREFIX_32B_SZ chunkSubFull.Hashes = [hash32] := by
  rw [entriesW, dif_pos (by decide), entriesW, dif_neg (by decide)]
  decide

/-- C4 counterexample: `hash32` appears in the SUB full-hash record
`chunkSubFull`, which is processed (its pair is not in the empty deletion
map) during a successful merge, yet after the merge `hash32` IS a member of
`FullHashes`, because the later ADD full-hash record re-inserted it.  The
claim's unconditional `h ∉ FullHashes` is therefore false. -/
theorem C4_counterexample :
    load cleanEnv sbl0 ⟨some ⟨[chunkSubFull, chunkAddFull], false⟩, none⟩ [] =
      some resC4 ∧
    resC4.err = none ∧ hash32 ∈ entriesW PREFIX_32B_SZ chunkSubFull.Hashes ∧
    hash32 ∈ resC4.sbl.FullHashes :=
  ⟨rfl, rfl, by rw [entriesW_subFull]; decide, by decide⟩

theorem C4_witness :
    hash32 ∈ resC4w.sbl.FullHashRequested ∧
    hash32 ∉ resC4w.sbl.FullHashes ∧
    hash32 ∈ resC4.sbl.FullHashRequested :=
  ⟨(C4_subfull_effect cleanEnv sbl0 ⟨some ⟨[chunkSubFull], false⟩, none⟩ []
      resC4w chunkSubFull hash32 [] [] rfl rfl rfl rfl (by decide)
      (by rw [entriesW_subFull]; decide) (Or.inl ⟨[], rfl, rfl⟩)).1,
   (C4_subfull_effect cleanEnv sbl0 ⟨some ⟨[chunkSubFull], false⟩, none⟩ []
      resC4w chunkSubFull hash32 [] [] rfl rfl rfl rfl (by decide)
      (by rw [entriesW_subFull]; decide) (Or.inl ⟨[], rfl, rfl⟩)).2 (by simp),
   (C4_subfull_effect cleanEnv sbl0
      ⟨some ⟨[chunkSubFull, chunkAddFull], false⟩, none⟩ [] resC4 chunkSubFull
      hash32 [chunkAddFull] [chunkAddFull] rfl rfl rfl rfl (by decide)
      (by rw [entriesW_subFull]; decide) (Or.inl ⟨[], rfl, rfl⟩)).1⟩

/-! ### C6 -/

theorem classify_core_congr (a b : Acc) (c : ChunkData) (h : AccCoreEq a b) :
    AccCoreEq (classify a c) (classify b c) := by
  obtain ⟨h1, h2, h3, h4⟩ := h
  refine ⟨?_, ?_, ?_, ?_⟩
  · rw [classify_addIdx, classify_addIdx, h1]
  · rw [classify_subIdx, classify_subIdx, h2]
  · rw [classify_tmp, classify_tmp, h3]
  · rw [classify_newLog, classify_newLog, h4]

/-- Replaying a retained record through the existing-log step under a clean
environment and an empty deletion map. -/
theorem stepExisting_clean_replay (c : ChunkData) (y : Acc) (t : TmpState)
    (ht : updateLookupMap c y.tmp = some t) :
    stepExisting cleanEnv ∅ y c =
      .ok { classify y c with
              newLog := y.newLog ++ [c], encCalls := y.encCalls + 1,
              tmp := t, addedChunkCount := y.addedChunkCount + 1 } := by
  unfold stepExisting
  rw [if_neg (Finset.not_mem_empty _)]
  unfold encodeAndApply
  have hef : encFails cleanEnv (classify y c).encCalls = false := rfl
  rw [hef]
  simp only [Bool.false_eq_true, if_false]
  rw [classify_tmp, ht]
  dsimp only
  rw [classify_newLog, classify_encCalls, classify_addedChunkCount]

theorem replays_retained (a : Acc) (c : ChunkData) (t : TmpState)
    (ht : updateLookupMap c a.tmp = some t) (hx : Replays a) :
    Replays { classify a c with
                newLog := a.newLog ++ [c], encCalls := a.encCalls + 1,
                tmp := t } := by
  obtain ⟨y, hy, hcore⟩ := hx
  have ht' : updateLookupMap c y.tmp = some t := by
    rw [hcore.2.2.1]; exact ht
  refine ⟨{ classify y c with
              newLog := y.newLog ++ [c], encCalls := y.encCalls + 1,
              tmp := t, addedChunkCount := y.addedChunkCount + 1 }, ?_, ?_⟩
  · show foldSteps (stepExisting cleanEnv ∅) initAcc (a.newLog ++ [c]) = _
    rw [foldSteps_append, hy]
    show foldSteps (stepExisting cleanEnv ∅) y [c] = _
    show (match stepExisting cleanEnv ∅ y c with
          | .ok a' => foldSteps (stepExisting cleanEnv ∅) a' []
          | r => r) = _
    rw [stepExisting_clean_replay c y t ht']
    rfl
  · have hcl := classify_core_congr y a c hcore
    exact ⟨hcl.1, hcl.2.1, rfl, by rw [hcore.2.2.2]⟩

theorem replays_stepExisting (env : Env) (del : Finset (Nat × Nat))
    (c : ChunkData) (a a' : Acc) (hs : stepExisting env del a c = .ok a')
    (hx : Replays a) : Replays a' := by
  rcases stepExisting_ok env del a c a' hs with ⟨_, rfl⟩ | ⟨_, t, ht, rfl⟩
  · obtain ⟨y, hy, hcore⟩ := hx
    exact ⟨y, hy, hcore⟩
  · have h1 := replays_retained a c t ht hx
    obtain ⟨y, hy, hcore⟩ := h1
    exact ⟨y, hy, hcore.1, hcore.2.1, hcore.2.2.1, hcore.2.2.2⟩

theorem replays_stepNew (env : Env) (del : Finset (Nat × Nat))
    (c : ChunkData) (a a' : Acc) (hs : stepNew env del a c = .ok a')
    (hx : Replays a) : Replays a' := by
  rcases stepNew_ok env del a c a' hs with ⟨_, rfl⟩ | ⟨_, _, t, ht, rfl⟩
  · obtain ⟨y, hy, hcore⟩ := hx
    exact ⟨y, hy, hcore⟩
  · have h1 := replays_retained a c t ht hx
    obtain ⟨y, hy, hcore⟩ := h1
    exact ⟨y, hy, hcore.1, hcore.2.1, hcore.2.2.1, hcore.2.2.2⟩

theorem loadCore_replays (env : Env) (del : Finset (Nat × Nat))
    (old : List ChunkData) (corrupt : Bool) (newChunks : List ChunkData)
    (a : Acc) (hok : loadCore env del old corrupt newChunks = .ok a) :
    ∃ y, foldSteps (stepExisting cleanEnv ∅) initAcc a.newLog = .ok y ∧
      AccCoreEq y a := by
  obtain ⟨a1, h1, hc, h2⟩ := loadCore_ok env del old corrupt newChunks a hok
  have hInit : Replays initAcc := ⟨initAcc, rfl, rfl, rfl, rfl, rfl⟩
  have hMid : Replays a1 :=
    foldSteps_inv (stepExisting env del) Replays old initAcc a1
      (fun b c b' _ hs hP => replays_stepExisting env del c b b' hs hP)
      h1 hInit
  have hMid2 : Replays (resetCounters a1 (Int.ofNat newChunks.length)) := by
    obtain ⟨y, hy, hcore⟩ := hMid
    exact ⟨y, hy, hcore.1, hcore.2.1, hcore.2.2.1, hcore.2.2.2⟩
  exact foldSteps_inv (stepNew env del) Replays newChunks _ a
    (fun b c b' _ hs hP => replays_stepNew env del c b b' hs hP) h2 hMid2

/-- C6: merging an empty delta, in a failure-free environment, against a list
whose persisted log was produced by a previous successful merge (which also
cleared `DeleteChunks`) succeeds and leaves the membership of all three live
containers and the chunk-range summary exactly as they were. -/
theorem C6_idempotence (env : Env) (sbl : SafeBrowsingList) (disk : Disk)
    (newChunks : List ChunkData) (r1 : LoadResult)
    (h1 : load env sbl disk newChunks = some r1) (he1 : r1.err = none) :
    ∃ r2, load cleanEnv r1.sbl r1.disk [] = some r2 ∧ r2.err = none ∧
      r2.sbl.Lookup = r1.sbl.Lookup ∧
      r2.sbl.FullHashes = r1.sbl.FullHashes ∧
      r2.sbl.FullHashRequested = r1.sbl.FullHashRequested ∧
      r2.sbl.ChunkRanges = r1.sbl.ChunkRanges := by
  obtain ⟨a, hcore, hsbl, hdisk⟩ := load_success env sbl disk newChunks r1 h1 he1
  obtain ⟨y, hy, hcoreq⟩ :=
    loadCore_replays env sbl.DeleteChunks _ _ newChunks a hcore
  have hDel : r1.sbl.DeleteChunks = ∅ := by rw [hsbl]
  have hold : effOld cleanEnv r1.disk = a.newLog := by
    unfold effOld
    rw [hdisk]
    rfl
  have hcor : effCorrupt cleanEnv r1.disk = false := by
    unfold effCorrupt
    rw [hdisk]
    rfl
  have hcore2 : loadCore cleanEnv r1.sbl.DeleteChunks (effOld cleanEnv r1.disk)
      (effCorrupt cleanEnv r1.disk) [] =
      .ok (resetCounters y (Int.ofNat ([] : List ChunkData).length)) := by
    rw [hDel, hold, hcor]
    unfold loadCore
    rw [hy]
    rfl
  have hload2 : load cleanEnv r1.sbl r1.disk [] = some ⟨none,
      { Lookup := y.tmp.tmpLookup, FullHashes := y.tmp.tmpFullHashes,
        FullHashRequested := y.tmp.tmpFullHashRequested, DeleteChunks := ∅,
        ChunkRanges := some (buildChunkRanges y.addChunkIndexes,
                             buildChunkRanges y.subChunkIndexes) },
      ⟨some ⟨y.newLog, false⟩, none⟩⟩ := by
    unfold load
    rw [if_neg (by decide), hcore2]
    dsimp only
    rw [if_neg (by rintro ⟨-, hx⟩; cases hx), if_neg (by rintro hx; cases hx)]
    rfl
  refine ⟨_, hload2, rfl, ?_, ?_, ?_, ?_⟩
  · show y.tmp.tmpLookup = r1.sbl.Lookup
    rw [hsbl, hcoreq.2.2.1]
  · show y.tmp.tmpFullHashes = r1.sbl.FullHashes
    rw [hsbl, hcoreq.2.2.1]
  · show y.tmp.tmpFullHashRequested = r1.sbl.FullHashRequested
    rw [hsbl, hcoreq.2.2.1]
  · show some (buildChunkRanges y.addChunkIndexes,
               buildChunkRanges y.subChunkIndexes) = r1.sbl.ChunkRanges
    rw [hsbl, hcoreq.1, hcoreq.2.1]

theorem C6_witness :
    ∃ r2, load cleanEnv resA.sbl resA.disk [] = some r2 ∧ r2.err = none ∧
      r2.sbl.Lookup = resA.sbl.Lookup ∧
      r2.sbl.FullHashes = resA.sbl.FullHashes ∧
      r2.sbl.FullHashRequested = resA.sbl.FullHashRequested ∧
      r2.sbl.ChunkRanges = resA.sbl.ChunkRanges :=
  C6_idempotence cleanEnv sbl0 disk0 [chunkAdd4] resA rfl rfl

/-! ### C7 -/

/-- C7: when the fetched delta is empty, the synchronize entry point never
reaches the merge: with no pending redirects it returns early, and with
redirects that decode to zero chunks it panics on `newChunks[0]`; in both
cases no field of the list state changes and no persisted log file is
created. -/
theorem C7_empty_delta_noop (env : Env) (sbl : SafeBrowsingList) (disk : Disk)
    (fetched : List (List ChunkData)) (hempty : fetched.flatten = [])
    (_hnofile : disk.mainFile = none) :
    loadDataFromRedirectLists env sbl disk fetched = .noUpdates sbl disk ∨
    loadDataFromRedirectLists env sbl disk fetched = .panicked sbl disk := by
  unfold loadDataFromRedirectLists
  cases fetched with
  | nil =>
    rw [if_pos (by decide)]
    exact Or.inl rfl
  | cons f fs =>
    rw [if_neg (by simp)]
    rw [hempty]
    exact Or.inr rfl

theorem C7_witness :
    loadDataFromRedirectLists cleanEnv sbl0 disk0 [] = .noUpdates sbl0 disk0 ∨
    loadDataFromRedirectLists cleanEnv sbl0 disk0 [] = .panicked sbl0 disk0 :=
  C7_empty_delta_noop cleanEnv sbl0 disk0 [] rfl rfl

end SafeBrowsing
